import Mathlib

/-!
Verification of the caption-animator text/layout/animation core.

Python strings are modelled as `List Char` (`Str`); machine floats used by the
source (division, `round`, `math.ceil`) are modelled with exact rationals `ℚ`,
with Python's banker's rounding made explicit (`pyRound`).  Font measurement
(`PIL.ImageFont.getlength` / `getmetrics`) is the external Measurement Adapter
and is taken as a parameter `w : Str → ℚ` plus integers `ascent, descent`.
-/

attribute [local semireducible] Rat.mul Rat.inv Rat.add Rat.sub Rat.ofScientific

abbrev Str := List Char

/-- Horizontal whitespace matched by the source's `[ \t]+` regex. -/
def isHT (c : Char) : Bool := c = ' ' || c = '\t'

/-- The whitespace characters stripped by Python's `str.strip()` and matched
by the regex class `\s` (both sets are identical): the six ASCII whitespace
characters, the information separators `\x1c`-`\x1f`, NEL, NBSP and the
Unicode space characters. -/
def pyIsSpace (c : Char) : Bool :=
  [0x9, 0xa, 0xb, 0xc, 0xd, 0x1c, 0x1d, 0x1e, 0x1f, 0x20, 0x85, 0xa0, 0x1680,
    0x2000, 0x2001, 0x2002, 0x2003, 0x2004, 0x2005, 0x2006, 0x2007, 0x2008,
    0x2009, 0x200a, 0x2028, 0x2029, 0x202f, 0x205f, 0x3000].contains c.toNat

/-- Python `s.replace(pat, rep)`: leftmost, non-overlapping.  The source only
calls this with nonempty literal patterns, so the empty pattern is mapped to
the identity. -/
def pyReplace (pat rep : Str) : Str → Str
  | [] => []
  | c :: rest =>
    if pat ≠ [] ∧ pat.isPrefixOf (c :: rest) then
      rep ++ pyReplace pat rep (rest.drop (pat.length - 1))
    else c :: pyReplace pat rep rest
termination_by s => s.length
decreasing_by
  · simp only [List.length_cons, List.length_drop]; omega
  · simp only [List.length_cons]; omega

/-- Python `s.split(sep)` for a one-character separator: `"".split(sep) = [""]`,
adjacent separators yield empty fields. -/
def splitOnChar (sep : Char) : Str → List Str
  | [] => [[]]
  | c :: rest =>
    if c = sep then [] :: splitOnChar sep rest
    else
      match splitOnChar sep rest with
      | [] => [[c]]
      | h :: t => (c :: h) :: t

/-- The source's `re.sub(r"[ \t]+", " ", text)`: collapse runs of spaces/tabs
to a single space. -/
def collapseWs : Str → Str
  | [] => []
  | c :: rest =>
    if isHT c then ' ' :: collapseWs (rest.dropWhile isHT)
    else c :: collapseWs rest
termination_by s => s.length
decreasing_by
  · have := (List.dropWhile_sublist (p := isHT) (l := rest)).length_le
    simp only [List.length_cons]; omega
  · simp only [List.length_cons]; omega

/-- Remove trailing Python whitespace. -/
def dropTrailWs (s : Str) : Str := (s.reverse.dropWhile pyIsSpace).reverse

/-- Python `str.strip()` (restricted to ASCII whitespace). -/
def pyStrip (s : Str) : Str := dropTrailWs (s.dropWhile pyIsSpace)

/-- `caption_animator.text.utils.normalize_whitespace`. -/
def normalize_whitespace (s : Str) : Str :=
  pyStrip (collapseWs (pyReplace ['\r'] ['\n'] (pyReplace ['\r', '\n'] ['\n'] s)))

/-- `sep.join(parts)` for a one-character separator. -/
def joinChar (c : Char) : List Str → Str
  | [] => []
  | [u] => u
  | u :: v :: rest => u ++ c :: joinChar c (v :: rest)

/-- `" ".join(ws)`. -/
def joinSp : List Str → Str := joinChar ' '

/-- `"\n".join(ls)`. -/
def joinNl : List Str → Str := joinChar '\n'

/-- The greedy inner loop of `wrap_text_to_width`: `current` is the (always
nonempty) line being built, the second list the remaining words; produces the
finished lines (`" ".join`ed), including the final flush. -/
def greedyWrap (w : Str → ℚ) (maxw : ℤ) : List Str → List Str → List Str
  | current, [] => [joinSp current]
  | current, word :: rest =>
    if w (joinSp (current ++ [word])) ≤ (maxw : ℚ) then
      greedyWrap w maxw (current ++ [word]) rest
    else joinSp current :: greedyWrap w maxw [word] rest

/-- One iteration of the outer loop of `wrap_text_to_width` over a raw input
line: strip it, keep blank lines as `""`, otherwise split into words and wrap
greedily (the first word always starts the line). -/
def wrapLine (w : Str → ℚ) (maxw : ℤ) (raw : Str) : List Str :=
  if pyStrip raw = [] then [[]]
  else
    match splitOnChar ' ' (pyStrip raw) with
    | [] => []
    | first :: ws => greedyWrap w maxw [first] ws

/-- All output lines of `wrap_text_to_width` on already-normalized text. -/
def wrapLines (w : Str → ℚ) (maxw : ℤ) (t : Str) : List Str :=
  ((splitOnChar '\n' t).map (wrapLine w maxw)).flatten

/-- `caption_animator.text.wrapper.wrap_text_to_width`, with the font's
`getlength` abstracted as `w`. -/
def wrap_text_to_width (w : Str → ℚ) (text : Str) (maxw : ℤ) : Str :=
  let t := normalize_whitespace text
  if maxw ≤ 0 then t
  else joinNl (wrapLines w maxw t)

/-- Python `max(l)` for a nonempty list of ints (`0` for `[]`, matching the
source's `max(widths) if widths else 0`). -/
def listMaxInt : List ℤ → ℤ
  | [] => 0
  | [x] => x
  | x :: y :: xs => max x (listMaxInt (y :: xs))

/-- `caption_animator.text.measurement.measure_multiline`:
returns `(max_line_width_px, total_height_px, line_count)`. -/
def measure_multiline (w : Str → ℚ) (ascent descent : ℤ) (text : Str)
    (line_spacing_px : ℤ) : ℤ × ℤ × ℤ :=
  let lines := splitOnChar '\n' text
  let widths := lines.map (fun l => ⌈w l⌉)
  let maxWidth := listMaxInt widths
  let lineHeight := ascent + descent
  let totalHeight := (lines.length : ℤ) * lineHeight
    + max 0 ((lines.length : ℤ) - 1) * line_spacing_px
  (maxWidth, totalHeight, (lines.length : ℤ))

/-- `caption_animator.text.utils.strip_ass_tags`:
`re.sub(r"\{[^}]*\}", "", text)` — each `{` up to the first following `}` is
removed; a `{` with no closing `}` is kept. -/
def strip_ass_tags : Str → Str
  | [] => []
  | c :: rest =>
    if c = Char.ofNat 123 then
      match rest.findIdx? (fun d => d = Char.ofNat 125) with
      | some i => strip_ass_tags (rest.drop (i + 1))
      | none => c :: strip_ass_tags rest
    else c :: strip_ass_tags rest
termination_by s => s.length
decreasing_by
  · simp only [List.length_cons, List.length_drop]; omega
  · simp only [List.length_cons]; omega
  · simp only [List.length_cons]; omega

/-- `caption_animator.core.sizing.OverlaySize`. -/
structure OverlaySize where
  width : ℤ
  height : ℤ
deriving DecidableEq, Repr

/-- The fields of `PresetConfig` consumed by `SizeCalculator.compute_size`
(padding is `[top, right, bottom, left]`, kept as four fields — the
`LayoutPreset` invariant guarantees exactly four entries). -/
structure PresetCfg where
  max_width_px : ℤ
  line_spacing : ℤ
  pad_t : ℤ
  pad_r : ℤ
  pad_b : ℤ
  pad_l : ℤ
  outline_px : ℚ
  shadow_px : ℚ
deriving DecidableEq, Repr

/-- The measurement loop of `compute_size`: running maxima `(max_w, max_h)`
over all events, each stripped, normalized, wrapped and measured. -/
def measureEvents (w : Str → ℚ) (ascent descent : ℤ) (p : PresetCfg)
    (events : List Str) : ℤ × ℤ :=
  events.foldl (fun acc text =>
    let t := normalize_whitespace (strip_ass_tags text)
    let t2 := wrap_text_to_width w t p.max_width_px
    let m := measure_multiline w ascent descent t2 p.line_spacing
    (max acc.1 m.1, max acc.2 m.2.1)) (0, 0)

/-- The source's final `if w_final % 2 == 1: w_final += 1`. -/
def evenize (z : ℤ) : ℤ := if z % 2 = 1 then z + 1 else z

/-- The tail of `compute_size` after the measurement loop: outline/shadow
allowance, padding, safety scale, ceiling, 64-minimum, even rounding. -/
def finalizeSize (p : PresetCfg) (safety_scale : ℚ) (maxWH : ℤ × ℤ) :
    OverlaySize :=
  let extraW : ℤ := ⌈p.outline_px * 2 + p.shadow_px * 2⌉
  let extraH : ℤ := ⌈p.outline_px * 2 + p.shadow_px * 2⌉
  let wFinal := ⌈((maxWH.1 + p.pad_l + p.pad_r + extraW : ℤ) : ℚ) * safety_scale⌉
  let hFinal := ⌈((maxWH.2 + p.pad_t + p.pad_b + extraH : ℤ) : ℚ) * safety_scale⌉
  ⟨evenize (max wFinal 64), evenize (max hFinal 64)⟩

/-- `caption_animator.core.sizing.SizeCalculator.compute_size`. -/
def compute_size (w : Str → ℚ) (ascent descent : ℤ) (p : PresetCfg)
    (safety_scale : ℚ) (events : List Str) : OverlaySize :=
  finalizeSize p safety_scale (measureEvents w ascent descent p events)

/-- Python 3 `round` on an exact rational: round-half-to-even. -/
def pyRound (q : ℚ) : ℤ :=
  let f := ⌊q⌋
  let r := q - (f : ℚ)
  if r < 1 / 2 then f
  else if 1 / 2 < r then f + 1
  else if f % 2 = 0 then f else f + 1

/-- `BaseAnimation._clamp`: `max(min_val, min(max_val, val))`. -/
def pyClamp (v lo hi : ℤ) : ℤ := max lo (min hi v)

/-- ASCII apostrophe (written by code point to keep quoting uniform). -/
def aposChar : Char := Char.ofNat 39

/-- ASCII approximation of the `\w` character class: alphanumeric or `_`. -/
def isWordChar (c : Char) : Bool := c.isAlphanum || c = '_'


/-- The token matched by the regex branch `\w+(?:'\w+)?[^\w\s]*` at the start
of `s` (greedy `\w+`, then an optional apostrophe-plus-`\w+` group, then a
greedy run of non-word non-space characters).  The unconsumed remainder is
`s.drop (matchWordTok s).length`. -/
def matchWordTok (s : Str) : Str :=
  let w1 := s.takeWhile isWordChar
  let r1 := s.dropWhile isWordChar
  let w2 : Str :=
    match r1 with
    | c :: d :: rest =>
      if c = aposChar && isWordChar d then c :: (d :: rest).takeWhile isWordChar
      else []
    | _ => []
  let p := (r1.drop w2.length).takeWhile (fun c => !isWordChar c && !pyIsSpace c)
  w1 ++ w2 ++ p

theorem matchWordTok_length_pos (c : Char) (rest : Str) (h : isWordChar c = true) :
    0 < (matchWordTok (c :: rest)).length := by
  unfold matchWordTok
  simp [List.takeWhile_cons, h]

/-- `re.findall(r"\w+(?:'\w+)?[^\w\s]*|[^\w\s]+", text)`: scan left to right;
at a word char take the word-token branch, at a non-space non-word char take a
punctuation run, at whitespace advance one character. -/
def findTokens : Str → List Str
  | [] => []
  | c :: rest =>
    if isWordChar c then
      let t := matchWordTok (c :: rest)
      t :: findTokens ((c :: rest).drop t.length)
    else if !pyIsSpace c then
      let t := (c :: rest).takeWhile (fun d => !isWordChar d && !pyIsSpace d)
      t :: findTokens ((c :: rest).drop t.length)
    else findTokens rest
termination_by s => s.length
decreasing_by
  · rename_i h
    have hp := matchWordTok_length_pos c rest h
    simp only [List.length_drop, List.length_cons]
    omega
  · rename_i h1 h2
    have hc : (!isWordChar c && !pyIsSpace c) = true := by
      simp only [Bool.and_eq_true, Bool.not_eq_true']
      exact ⟨by simpa using h1, by simpa using h2⟩
    have hp : 0 < ((c :: rest).takeWhile (fun d => !isWordChar d && !pyIsSpace d)).length := by
      simp [List.takeWhile_cons, hc]
    simp only [List.length_drop, List.length_cons]
    omega
  · simp only [List.length_cons]; omega

/-- `WordRevealAnimation._tokenize_with_newlines`: replace the ASS `\N` escape
by a real newline, split on newlines, tokenize each line, and put an explicit
`"\n"` token between consecutive lines. -/
def tokenizeWithNewlines (text : Str) : List Str :=
  let t := pyReplace ['\\', 'N'] ['\n'] text
  List.intercalate [['\n']] ((splitOnChar '\n' t).map findTokens)

/-- `WordRevealAnimation._is_word_token`: not the newline token and starts
with a `\w` character. -/
def is_word_token (t : Str) : Bool :=
  t ≠ ['\n'] && (match t with | [] => false | c :: _ => isWordChar c)

/-- `[i for i, w in enumerate(is_word) if w]`. -/
def wordIndices (tokens : List Str) : List ℕ :=
  (List.range tokens.length).filter (fun i => is_word_token (tokens.getD i []))

/-- The error message raised for an unsupported word_reveal mode:
`Unsupported word_reveal mode '<mode>' (use 'even' or 'weighted')`. -/
def modeErrorMsg (mode : Str) : Str :=
  "Unsupported word_reveal mode ".toList ++ [aposChar] ++ mode ++ [aposChar]
    ++ " (use ".toList ++ [aposChar] ++ "even".toList ++ [aposChar]
    ++ " or ".toList ++ [aposChar] ++ "weighted".toList ++ [aposChar]
    ++ ")".toList

/-- The mode-dispatched first phase of `_allocate_timing`: distribute
`available_ms` over the word tokens (`even` or `weighted`), raising
`ValueError` for any other mode. -/
def allocWords (tokens : List Str) (wis : List ℕ) (avail : ℤ) (mode : Str) :
    Except Str (List ℤ) :=
  let init : List ℤ := List.replicate tokens.length 0
  if mode = "even".toList then
    let base : ℚ := (avail : ℚ) / ((max 1 wis.length : ℕ) : ℚ)
    Except.ok (wis.foldl (fun acc i => acc.set i (pyRound base)) init)
  else if mode = "weighted".toList then
    let lengths : List ℤ := wis.map (fun i => ((tokens.getD i []).length : ℤ))
    let total : ℤ := if lengths.sum = 0 then 1 else lengths.sum
    Except.ok ((List.zip wis lengths).foldl
      (fun acc q => acc.set q.1 (pyRound ((avail : ℚ) * ((q.2 : ℚ) / (total : ℚ))))) init)
  else Except.error (modeErrorMsg mode)

/-- `for i in word_indices: token_ms[i] = clamp(token_ms[i], min, max)`. -/
def clampStep (wis : List ℕ) (mn mx : ℤ) (l : List ℤ) : List ℤ :=
  wis.foldl (fun acc i => acc.set i (pyClamp (acc.getD i 0) mn mx)) l

/-- Indices of standalone punctuation tokens: not `"\n"`, not a word token,
and nonempty after stripping. -/
def punctIndices (tokens : List Str) : List ℕ :=
  (List.range tokens.length).filter (fun i =>
    let t := tokens.getD i []
    t ≠ ['\n'] && !is_word_token t && pyStrip t ≠ [])

/-- `token_ms[i] = min(50, available_ms // max(1, len(tokens)))` for standalone
punctuation. -/
def punctStep (tokens : List Str) (avail : ℤ) (l : List ℤ) : List ℤ :=
  (punctIndices tokens).foldl (fun acc i =>
    acc.set i (min 50 (Int.ediv avail (max 1 (tokens.length : ℤ))))) l

/-- `_allocate_timing` up to (but not including) the renormalization step. -/
def preAllocate (tokens : List Str) (wis : List ℕ) (avail : ℤ) (mode : Str)
    (mn mx : ℤ) : Except Str (List ℤ) :=
  (allocWords tokens wis avail mode).map
    (fun l => punctStep tokens avail (clampStep wis mn mx l))

/-- The renormalization step of `_allocate_timing`: if the total is positive,
rescale every entry by `available_ms / total` and round. -/
def renormalize (avail : ℤ) (l : List ℤ) : List ℤ :=
  let total := l.sum
  if 0 < total then
    l.map (fun t : ℤ => pyRound ((t : ℚ) * ((avail : ℚ) / (total : ℚ))))
  else l

/-- `WordRevealAnimation._allocate_timing`. -/
def allocate_timing (tokens : List Str) (wis : List ℕ) (avail : ℤ) (mode : Str)
    (mn mx : ℤ) : Except Str (List ℤ) :=
  (preAllocate tokens wis avail mode mn mx).map (renormalize avail)

/-- Decimal digits of a natural number (most significant first), as Python's
`str(n)` for `n ≥ 0`. -/
def natToDigits : ℕ → Str
  | n =>
    if h : n < 10 then [Char.ofNat (48 + n)]
    else natToDigits (n / 10) ++ [Char.ofNat (48 + n % 10)]
termination_by n => n
decreasing_by
  exact Nat.div_lt_self (by omega) (by omega)

/-- Python `str(z)` for an integer. -/
def intToStr (z : ℤ) : Str :=
  if z < 0 then '-' :: natToDigits z.natAbs else natToDigits z.toNat

/-- Is `pat` a contiguous substring of `s` (Python's `pat in s`)? -/
def isSubStr (pat : Str) : Str → Bool
  | [] => pat.isPrefixOf []
  | c :: t => pat.isPrefixOf (c :: t) || isSubStr pat t

/-- The parameters of `WordRevealAnimation` (`self.params` after defaults). -/
structure WordRevealParams where
  mode : Str
  lead_in_ms : ℤ
  min_word_ms : ℤ
  max_word_ms : ℤ
  unrevealed_color : Option Str

/-- Python `str.lower()` (ASCII). -/
def pyLower (s : Str) : Str := s.map Char.toLower

/-- Python `str.upper()` (ASCII). -/
def pyUpper (s : Str) : Str := s.map Char.toUpper

/-- `ms_to_cs` inside `_build_output`: `max(0, int(round(ms / 10.0)))`. -/
def msToCs (ms : ℤ) : ℤ := max 0 (pyRound ((ms : ℚ) / 10))

/-- Opening brace character `{`. -/
def obrace : Char := Char.ofNat 123

/-- Closing brace character `}`. -/
def cbrace : Char := Char.ofNat 125

/-- An ASS `{\k<cs>}` tag. -/
def kTag (cs : ℤ) : Str := [obrace] ++ "\\k".toList ++ intToStr cs ++ [cbrace]

/-- Quote characters checked for the leading char of a token; the source
tuple is `("'", '"', "'")` — three ASCII literals with a duplicate apostrophe,
so the set is just `'` and `"`. -/
def quoteChars : Str := [aposChar, '"']

/-- Opening quote/bracket characters checked for the trailing char of the
previous token; the source tuple again duplicates the ASCII apostrophe, so
the set is `'`, `"`, `(`, `[`, `{`. -/
def openChars : Str := [aposChar, '"', '(', '[', obrace]

/-- The `{\2c&HBBGGRR}` prefix emitted for a `#RRGGBB` unrevealed color. -/
def colorTagOut (oc : Option Str) : Str :=
  match oc with
  | none => []
  | some col =>
    if col.take 1 = ['#'] && col.length = 7 then
      let r := (col.drop 1).take 2
      let g := (col.drop 3).take 2
      let b := (col.drop 5).take 2
      [obrace] ++ "\\2c&H".toList ++ pyUpper b ++ pyUpper g ++ pyUpper r ++ [cbrace]
    else []

/-- The token-emission loop of `_build_output`, tracking `prev_token`. -/
def buildOutputAux : List (Str × ℤ) → Option Str → Str
  | [], _ => []
  | (tok, ms) :: rest, prev =>
    if tok = ['\n'] then "\\N".toList ++ buildOutputAux rest (some ['\n'])
    else
      let sp : Str :=
        match prev with
        | none => []
        | some pt =>
          if pt = ['\n'] then []
          else if (match tok with
                   | c :: _ => !c.isAlphanum && !quoteChars.contains c
                   | [] => false) then []
          else if (match pt.getLast? with
                   | some d => openChars.contains d
                   | none => false) then []
          else [' ']
      sp ++ kTag (msToCs ms) ++ tok ++ buildOutputAux rest (some tok)

/-- `WordRevealAnimation._build_output`. -/
def buildOutput (p : WordRevealParams) (tokens : List Str) (tms : List ℤ) : Str :=
  colorTagOut p.unrevealed_color
    ++ (if 0 < p.lead_in_ms then kTag (msToCs p.lead_in_ms) else [])
    ++ buildOutputAux (List.zip tokens tms) none

/-- `WordRevealAnimation._build_karaoke_text`; a raised `ValueError` is the
`Except.error` case. -/
def build_karaoke_text (p : WordRevealParams) (plain : Str)
    (event_duration_ms : ℤ) : Except Str Str :=
  let tokens := tokenizeWithNewlines plain
  if tokens = [] then Except.ok plain
  else
    let mode := pyLower (pyStrip p.mode)
    let avail := max 0 (event_duration_ms - p.lead_in_ms)
    if avail ≤ 0 then Except.ok plain
    else
      let wis := wordIndices tokens
      if wis = [] then Except.ok plain
      else
        (allocate_timing tokens wis avail mode p.min_word_ms p.max_word_ms).map
          (fun tms => buildOutput p tokens tms)

/-- `WordRevealAnimation.generate_ass_override` returns the empty override. -/
def wordRevealGenerateOverride : Str := []

/-- `SlideUpAnimation.generate_ass_override`:
`\fad(<in>,<out>)\move({X},{Y_PLUS_DY},{X},{Y},0,<in>)` with the clamps the
source applies on emission. -/
def slide_generate_ass_override (in_ms out_ms : ℤ) : Str :=
  let i := pyClamp in_ms 0 4000
  let o := pyClamp out_ms 0 2000
  "\\fad(".toList ++ intToStr i ++ ",".toList ++ intToStr o
    ++ ")\\move(".toList
    ++ "\x7bX\x7d,\x7bY_PLUS_DY\x7d,\x7bX\x7d,\x7bY\x7d,0,".toList
    ++ intToStr i ++ ")".toList

/-- `SlideUpAnimation.substitute_placeholders`: replace `{X}` with `x`, then
`{Y}` with `y`, then `{Y_PLUS_DY}` with `y + move_px`. -/
def slide_substitute_placeholders (text : Str) (x y move_px : ℤ) : Str :=
  pyReplace "\x7bY_PLUS_DY\x7d".toList (intToStr (y + move_px))
    (pyReplace "\x7bY\x7d".toList (intToStr y)
      (pyReplace "\x7bX\x7d".toList (intToStr x) text))

/-- `BaseAnimation._inject_override`. -/
def inject_override (text override : Str) : Str :=
  if override = [] then text
  else if text.take 1 = [obrace] ∧ cbrace ∈ text then
    let e := text.findIdx (fun c => c = cbrace)
    [obrace] ++ override ++ (text.take e).drop 1 ++ [cbrace] ++ text.drop (e + 1)
  else [obrace] ++ override ++ [cbrace] ++ text

theorem splitOnChar_ne_nil (sep : Char) (s : Str) : splitOnChar sep s ≠ [] := by
  cases s with
  | nil => simp [splitOnChar]
  | cons c rest =>
    simp only [splitOnChar]
    split
    · simp
    · split <;> simp

theorem listMaxInt_ge_mem (l : List ℤ) (x : ℤ) (hx : x ∈ l) : x ≤ listMaxInt l := by
  induction l with
  | nil => cases hx
  | cons a t ih =>
    cases t with
    | nil => simp at hx; simp [listMaxInt, hx]
    | cons b t2 =>
      simp only [listMaxInt]
      rcases List.mem_cons.1 hx with rfl | hmem
      · exact le_max_left _ _
      · exact le_trans (ih hmem) (le_max_right _ _)

theorem listMaxInt_mem (l : List ℤ) (hl : l ≠ []) : listMaxInt l ∈ l := by
  induction l with
  | nil => exact absurd rfl hl
  | cons a t ih =>
    cases t with
    | nil => simp [listMaxInt]
    | cons b t2 =>
      simp only [listMaxInt]
      rcases max_cases a (listMaxInt (b :: t2)) with ⟨h, _⟩ | ⟨h, _⟩
      · rw [h]; exact List.mem_cons_self _ _
      · rw [h]; exact List.mem_cons_of_mem _ (ih (by simp))

theorem evenize_max64_even (x : ℤ) : evenize (max x 64) % 2 = 0 ∧ 64 ≤ evenize (max x 64) := by
  unfold evenize
  rcases max_cases x 64 with ⟨h, h64⟩ | ⟨h, h64⟩ <;> rw [h] <;> split <;> omega

/-- C3: for every event list, preset, font metrics and safety scale, the
canvas computed by `compute_size` has even width and height, and both
dimensions are at least 64. -/
theorem C3_compute_size_even_and_min (w : Str → ℚ) (ascent descent : ℤ)
    (p : PresetCfg) (safety_scale : ℚ) (events : List Str) :
    (compute_size w ascent descent p safety_scale events).width % 2 = 0 ∧
    64 ≤ (compute_size w ascent descent p safety_scale events).width ∧
    (compute_size w ascent descent p safety_scale events).height % 2 = 0 ∧
    64 ≤ (compute_size w ascent descent p safety_scale events).height := by
  unfold compute_size finalizeSize
  exact ⟨(evenize_max64_even _).1, (evenize_max64_even _).2,
    (evenize_max64_even _).1, (evenize_max64_even _).2⟩

/-- C6: `measure_multiline` splits on the line-break marker (the empty string
counting as one line), returns the maximum per-line ceiled width, and computes
`total_height = line_count × (ascent+descent) + max(0, line_count−1) ×
line_spacing_px` with no clamping (negative spacing permitted); in the
concrete scenario `ascent=40, descent=10, text="A\nB", spacing=5` it returns
height 105 and line count 2. -/
theorem C6_measure_multiline_spec (w : Str → ℚ) (ascent descent sp : ℤ)
    (text : Str) :
    ((measure_multiline w ascent descent text sp).2.2
        = ((splitOnChar '\n' text).length : ℤ) ∧
      (measure_multiline w ascent descent text sp).2.1
        = ((splitOnChar '\n' text).length : ℤ) * (ascent + descent)
          + max 0 (((splitOnChar '\n' text).length : ℤ) - 1) * sp ∧
      (∀ l ∈ splitOnChar '\n' text,
        ⌈w l⌉ ≤ (measure_multiline w ascent descent text sp).1) ∧
      (∃ l ∈ splitOnChar '\n' text,
        (measure_multiline w ascent descent text sp).1 = ⌈w l⌉)) ∧
    measure_multiline w 40 10 ['A', '\n', 'B'] 5
      = (max ⌈w ['A']⌉ ⌈w ['B']⌉, 105, 2) := by
  constructor
  · refine ⟨rfl, rfl, ?_, ?_⟩
    · intro l hl
      exact listMaxInt_ge_mem _ _ (List.mem_map_of_mem (fun l => ⌈w l⌉) hl)
    · have hne : (splitOnChar '\n' text).map (fun l => ⌈w l⌉) ≠ [] := by
        simp [splitOnChar_ne_nil]
      obtain ⟨l, hl, hv⟩ := List.mem_map.1 (listMaxInt_mem _ hne)
      exact ⟨l, hl, hv.symm⟩
  · show measure_multiline w 40 10 ['A', '\n', 'B'] 5 = _
    have hs : splitOnChar '\n' ['A', '\n', 'B'] = [['A'], ['B']] := by decide
    unfold measure_multiline
    rw [hs]
    norm_num [listMaxInt]

/-- C10: injecting an empty override fragment never changes the event text,
and word_reveal's `generate_ass_override` returns the empty fragment, so
routing it through the injector is the identity. -/
theorem C10_inject_empty_override_identity (text : Str) :
    inject_override text wordRevealGenerateOverride = text ∧
    inject_override text [] = text ∧
    wordRevealGenerateOverride = [] := by
  refine ⟨?_, ?_, rfl⟩ <;> simp [inject_override, wordRevealGenerateOverride]

theorem findIdx_cbrace_append (head rest : Str) (h : cbrace ∉ head) :
    (head ++ cbrace :: rest).findIdx (fun c => c = cbrace) = head.length := by
  induction head with
  | nil => simp [List.findIdx_cons]
  | cons c t ih =>
    have hc : ¬(c = cbrace) := fun e => h (e ▸ List.mem_cons_self c t)
    have iht := ih (fun hm => h (List.mem_cons_of_mem c hm))
    simp [List.findIdx_cons, hc, iht]

/-- C5: for a non-empty override fragment, if the event text begins with a
markup block `{...}` the fragment is inserted inside that block before its
existing content, preserving that content and the rest of the text; otherwise
a fresh block holding only the fragment is prepended to the unchanged text. -/
theorem C5_inject_override_spec (ov head rest text : Str) (hov : ov ≠ []) :
    (cbrace ∉ head →
      inject_override (obrace :: (head ++ cbrace :: rest)) ov
        = obrace :: (ov ++ head ++ cbrace :: rest)) ∧
    ((text.take 1 ≠ [obrace] ∨ cbrace ∉ text) →
      inject_override text ov = obrace :: (ov ++ cbrace :: text)) := by
  constructor
  · intro hh
    have hob : ¬(obrace = cbrace) := by decide
    have hidx : (obrace :: (head ++ cbrace :: rest)).findIdx (fun c => c = cbrace)
        = head.length + 1 := by
      simp [List.findIdx_cons, hob, findIdx_cbrace_append head rest hh]
    have hcond : (obrace :: (head ++ cbrace :: rest)).take 1 = [obrace] ∧
        cbrace ∈ obrace :: (head ++ cbrace :: rest) := by
      refine ⟨rfl, ?_⟩
      simp
    unfold inject_override
    rw [if_neg hov, if_pos hcond]
    simp only [hidx]
    have htake : (obrace :: (head ++ cbrace :: rest)).take (head.length + 1)
        = obrace :: head := by
      simp only [List.take_succ_cons]
      rw [List.take_left]
    have hdrop : (obrace :: (head ++ cbrace :: rest)).drop (head.length + 1 + 1)
        = rest := by
      simp only [List.drop_succ_cons]
      rw [List.drop_append]
      rfl
    rw [htake, hdrop]
    simp
  · intro hother
    have hcond : ¬((text.take 1 = [obrace]) ∧ cbrace ∈ text) := by
      rcases hother with h1 | h2
      · exact fun hc => h1 hc.1
      · exact fun hc => h2 hc.2
    unfold inject_override
    rw [if_neg hov, if_neg hcond]
    simp

theorem C5_inject_override_spec_witness :
    (inject_override (obrace :: ("fad".toList ++ cbrace :: "Hello".toList)) "mv".toList
      = obrace :: ("mv".toList ++ "fad".toList ++ cbrace :: "Hello".toList)) ∧
    (inject_override "Hello".toList "mv".toList
      = obrace :: ("mv".toList ++ cbrace :: "Hello".toList)) :=
  ⟨(C5_inject_override_spec "mv".toList "fad".toList "Hello".toList "Hello".toList
      (by decide)).1 (by decide),
   (C5_inject_override_spec "mv".toList "fad".toList "Hello".toList "Hello".toList
      (by decide)).2 (by decide)⟩

theorem pyReplace_nilStr (pat rep : Str) : pyReplace pat rep [] = [] := by
  simp [pyReplace]

theorem pyReplace_cons_neg (pat rep : Str) (c : Char) (s : Str)
    (h : ¬(pat ≠ [] ∧ pat.isPrefixOf (c :: s) = true)) :
    pyReplace pat rep (c :: s) = c :: pyReplace pat rep s := by
  rw [pyReplace]
  simp only [if_neg h]

theorem isPrefixOf_cons₂ (a b : Char) (as bs : Str) :
    (a :: as).isPrefixOf (b :: bs) = ((a == b) && as.isPrefixOf bs) := rfl

theorem pyReplace_hit (p : Char) (pt rep s : Str) :
    pyReplace (p :: pt) rep ((p :: pt) ++ s) = rep ++ pyReplace (p :: pt) rep s := by
  have hpre : (p :: pt).isPrefixOf ((p :: pt) ++ s) = true := by
    rw [ List.isPrefixOf_iff_prefix]
    exact ( List.prefix_append _ _)
  rw [List.cons_append, pyReplace]
  rw [if_pos ⟨List.cons_ne_nil _ _, by simp⟩]
  congr 1
  simp only [List.length_cons, Nat.add_sub_cancel]
  rw [List.drop_left]

theorem pyReplace_chunk (p : Char) (pt rep a s : Str) (ha : ∀ c ∈ a, c ≠ p) :
    pyReplace (p :: pt) rep (a ++ s) = a ++ pyReplace (p :: pt) rep s := by
  induction a with
  | nil => simp
  | cons c t ih =>
    have hc : c ≠ p := ha c (List.mem_cons_self c t)
    have hnp : ¬((p :: pt) ≠ [] ∧ (p :: pt).isPrefixOf (c :: (t ++ s)) = true) := by
      rintro ⟨-, hpre⟩
      rw [isPrefixOf_cons₂] at hpre
      simp only [Bool.and_eq_true, beq_iff_eq] at hpre
      exact hc hpre.1.symm
    rw [List.cons_append, pyReplace_cons_neg _ _ _ _ hnp,
      ih (fun c hm => ha c (List.mem_cons_of_mem _ hm))]
    simp

theorem isSubStr_false_of_head_not_mem (p : Char) (pt s : Str) (h : p ∉ s) :
    isSubStr (p :: pt) s = false := by
  induction s with
  | nil => simp [isSubStr, List.isPrefixOf]
  | cons c t ih =>
    simp only [isSubStr, Bool.or_eq_false_iff]
    refine ⟨?_, ih (fun hm => h (List.mem_cons_of_mem _ hm))⟩
    rw [isPrefixOf_cons₂]
    have hc : ¬(p = c) := fun e => h (e ▸ List.mem_cons_self c t)
    simp [hc]

theorem prefix_total_of_common (l₁ l₂ l₃ : Str) (h1 : l₁ <+: l₃) (h2 : l₂ <+: l₃) :
    l₁ <+: l₂ ∨ l₂ <+: l₁ :=
  List.prefix_or_prefix_of_prefix h1 h2

theorem not_isPrefixOf_append (pat s r : Str) (h1 : ¬ pat <+: s) (h2 : ¬ s <+: pat) :
    pat.isPrefixOf (s ++ r) = false := by
  rw [Bool.eq_false_iff]
  intro hpre
  rw [ List.isPrefixOf_iff_prefix] at hpre
  rcases prefix_total_of_common pat s (s ++ r) hpre ( List.prefix_append _ _) with h | h
  · exact h1 h
  · exact h2 h

/-- A decomposition of a markup fragment into verbatim chunks (`false`, free of
`{`) and placeholder occurrences (`true`, starting with `{`). -/
def segsJoin (l : List (Bool × Str)) : Str := (l.map Prod.snd).flatten

/-- One `str.replace` pass over a segmented fragment: occurrences of the
pattern placeholder become the (brace-free) replacement, everything else is
untouched. -/
theorem pyReplace_segs (pt rep : Str) (segs : List (Bool × Str))
    (hch : ∀ s, (false, s) ∈ segs → ∀ c ∈ s, c ≠ obrace)
    (hph : ∀ s, (true, s) ∈ segs →
      (∃ tail, s = obrace :: tail ∧ ∀ c ∈ tail, c ≠ obrace) ∧
      (s = obrace :: pt ∨ (¬ (obrace :: pt) <+: s ∧ ¬ s <+: (obrace :: pt)))) :
    pyReplace (obrace :: pt) rep (segsJoin segs)
      = segsJoin (segs.map (fun bs =>
          if bs = (true, obrace :: pt) then (false, rep) else bs)) := by
  induction segs with
  | nil => simp [segsJoin, pyReplace_nilStr]
  | cons seg rest ih =>
    have ihr := ih (fun s hm => hch s (List.mem_cons_of_mem _ hm))
      (fun s hm => hph s (List.mem_cons_of_mem _ hm))
    obtain ⟨b, s⟩ := seg
    cases b with
    | false =>
      have hs := hch s (List.mem_cons_self _ _)
      have : segsJoin ((false, s) :: rest) = s ++ segsJoin rest := by
        simp [segsJoin]
      rw [this, pyReplace_chunk _ _ _ _ _ hs, ihr]
      simp [segsJoin]
    | true =>
      obtain ⟨⟨tail, htail, htailfree⟩, hcase⟩ := hph s (List.mem_cons_self _ _)
      rcases hcase with heq | ⟨hnp1, hnp2⟩
      · subst heq
        have : segsJoin ((true, obrace :: pt) :: rest)
            = (obrace :: pt) ++ segsJoin rest := by simp [segsJoin]
        rw [this, pyReplace_hit, ihr]
        simp [segsJoin]
      · have hne : s ≠ obrace :: pt := fun e => hnp2 (e ▸ List.prefix_refl _)
        have hjoin : segsJoin ((true, s) :: rest) = s ++ segsJoin rest := by
          simp [segsJoin]
        rw [hjoin, htail]
        have hnp : ¬((obrace :: pt) ≠ [] ∧
            (obrace :: pt).isPrefixOf (obrace :: (tail ++ segsJoin rest)) = true) := by
          rintro ⟨-, hpre⟩
          have : (obrace :: pt).isPrefixOf (s ++ segsJoin rest) = false :=
            not_isPrefixOf_append _ _ _ hnp1 hnp2
          rw [htail, List.cons_append] at this
          rw [this] at hpre
          cases hpre
        rw [List.cons_append, pyReplace_cons_neg _ _ _ _ hnp,
          pyReplace_chunk _ _ _ _ _ htailfree, ihr]
        have htp : tail ≠ pt := fun e => hne (by rw [htail, e])
        simp [segsJoin, htp, htail]

theorem natToDigits_no_obrace (n : ℕ) : ∀ c ∈ natToDigits n, c ≠ obrace := by
  induction n using Nat.strong_induction_on with
  | _ n ih =>
    rw [natToDigits]
    split
    · rename_i h
      intro c hc
      simp only [List.mem_singleton] at hc
      subst hc
      interval_cases n <;> decide
    · rename_i h
      intro c hc
      rcases List.mem_append.1 hc with hm | hm
      · exact ih (n / 10) (Nat.div_lt_self (by omega) (by omega)) c hm
      · simp only [List.mem_singleton] at hm
        subst hm
        have h10 : n % 10 < 10 := Nat.mod_lt _ (by omega)
        set r := n % 10 with hr
        interval_cases r <;> decide

theorem intToStr_no_obrace (z : ℤ) : ∀ c ∈ intToStr z, c ≠ obrace := by
  unfold intToStr
  split
  · intro c hc
    rcases List.mem_cons.1 hc with rfl | hm
    · decide
    · exact natToDigits_no_obrace _ c hm
  · exact natToDigits_no_obrace _

/-- C4: for every slide_up fragment produced by `generate_ass_override` and
every anchor position `(x, y)`, `substitute_placeholders` replaces every
occurrence of `{X}` with `x`, `{Y}` with `y` and `{Y_PLUS_DY}` with
`y + move_px`, and the substituted fragment contains no remaining `{X}`,
`{Y}` or `{Y_PLUS_DY}` tokens. -/
theorem C4_slide_placeholder_resolution (in_ms out_ms x y move_px : ℤ) :
    slide_substitute_placeholders (slide_generate_ass_override in_ms out_ms) x y move_px
      = "\\fad(".toList ++ intToStr (pyClamp in_ms 0 4000) ++ ",".toList
        ++ intToStr (pyClamp out_ms 0 2000) ++ ")\\move(".toList
        ++ intToStr x ++ ",".toList ++ intToStr (y + move_px) ++ ",".toList
        ++ intToStr x ++ ",".toList ++ intToStr y ++ ",0,".toList
        ++ intToStr (pyClamp in_ms 0 4000) ++ ")".toList ∧
    isSubStr "\x7bX\x7d".toList
      (slide_substitute_placeholders (slide_generate_ass_override in_ms out_ms) x y move_px)
      = false ∧
    isSubStr "\x7bY\x7d".toList
      (slide_substitute_placeholders (slide_generate_ass_override in_ms out_ms) x y move_px)
      = false ∧
    isSubStr "\x7bY_PLUS_DY\x7d".toList
      (slide_substitute_placeholders (slide_generate_ass_override in_ms out_ms) x y move_px)
      = false := by
  have hX : "\x7bX\x7d".toList = obrace :: "X\x7d".toList := by decide
  have hY : "\x7bY\x7d".toList = obrace :: "Y\x7d".toList := by decide
  have hYP : "\x7bY_PLUS_DY\x7d".toList = obrace :: "Y_PLUS_DY\x7d".toList := by decide
  have fdi := intToStr_no_obrace (pyClamp in_ms 0 4000)
  have fdo := intToStr_no_obrace (pyClamp out_ms 0 2000)
  have fdx := intToStr_no_obrace x
  have fdy := intToStr_no_obrace y
  have fdyp := intToStr_no_obrace (y + move_px)
  have h0 : slide_generate_ass_override in_ms out_ms
      = segsJoin [(false, "\\fad(".toList), (false, intToStr (pyClamp in_ms 0 4000)),
          (false, ",".toList), (false, intToStr (pyClamp out_ms 0 2000)),
          (false, ")\\move(".toList),
          (true, obrace :: "X\x7d".toList), (false, ",".toList),
          (true, obrace :: "Y_PLUS_DY\x7d".toList), (false, ",".toList),
          (true, obrace :: "X\x7d".toList), (false, ",".toList),
          (true, obrace :: "Y\x7d".toList), (false, ",0,".toList),
          (false, intToStr (pyClamp in_ms 0 4000)), (false, ")".toList)] := by
    have hsplit : "\x7bX\x7d,\x7bY_PLUS_DY\x7d,\x7bX\x7d,\x7bY\x7d,0,".toList
        = (obrace :: "X\x7d".toList) ++ ",".toList
          ++ (obrace :: "Y_PLUS_DY\x7d".toList) ++ ",".toList
          ++ (obrace :: "X\x7d".toList) ++ ",".toList
          ++ (obrace :: "Y\x7d".toList) ++ ",0,".toList := by decide
    simp only [slide_generate_ass_override]
    rw [hsplit]
    simp [segsJoin]
  have hpass1 : pyReplace "\x7bX\x7d".toList (intToStr x)
        (slide_generate_ass_override in_ms out_ms)
      = segsJoin [(false, "\\fad(".toList), (false, intToStr (pyClamp in_ms 0 4000)),
          (false, ",".toList), (false, intToStr (pyClamp out_ms 0 2000)),
          (false, ")\\move(".toList),
          (false, intToStr x), (false, ",".toList),
          (true, obrace :: "Y_PLUS_DY\x7d".toList), (false, ",".toList),
          (false, intToStr x), (false, ",".toList),
          (true, obrace :: "Y\x7d".toList), (false, ",0,".toList),
          (false, intToStr (pyClamp in_ms 0 4000)), (false, ")".toList)] := by
    rw [h0, hX, pyReplace_segs]
    · simp +decide [segsJoin]
    · intro s hm
      simp only [List.mem_cons, List.not_mem_nil, or_false, Prod.mk.injEq,
        false_and, false_or, true_and, Bool.false_eq_true] at hm
      rcases hm with rfl | rfl | rfl | rfl | rfl | rfl | rfl | rfl | rfl | rfl | rfl <;>
        first
          | exact fdi
          | exact fdo
          | decide
    · intro s hm
      simp only [List.mem_cons, List.not_mem_nil, or_false, Prod.mk.injEq,
        false_and, false_or, true_and, Bool.true_eq_false] at hm
      rcases hm with rfl | rfl | rfl | rfl <;>
        first
          | exact ⟨⟨"X\x7d".toList, rfl, by decide⟩, Or.inl rfl⟩
          | exact ⟨⟨"Y_PLUS_DY\x7d".toList, rfl, by decide⟩, Or.inr (by decide)⟩
          | exact ⟨⟨"Y\x7d".toList, rfl, by decide⟩, Or.inr (by decide)⟩
  have hpass2 : pyReplace "\x7bY\x7d".toList (intToStr y)
        (pyReplace "\x7bX\x7d".toList (intToStr x)
          (slide_generate_ass_override in_ms out_ms))
      = segsJoin [(false, "\\fad(".toList), (false, intToStr (pyClamp in_ms 0 4000)),
          (false, ",".toList), (false, intToStr (pyClamp out_ms 0 2000)),
          (false, ")\\move(".toList),
          (false, intToStr x), (false, ",".toList),
          (true, obrace :: "Y_PLUS_DY\x7d".toList), (false, ",".toList),
          (false, intToStr x), (false, ",".toList),
          (false, intToStr y), (false, ",0,".toList),
          (false, intToStr (pyClamp in_ms 0 4000)), (false, ")".toList)] := by
    rw [hpass1, hY, pyReplace_segs]
    · simp +decide [segsJoin]
    · intro s hm
      simp only [List.mem_cons, List.not_mem_nil, or_false, Prod.mk.injEq,
        false_and, false_or, true_and, Bool.false_eq_true] at hm
      rcases hm with rfl | rfl | rfl | rfl | rfl | rfl | rfl | rfl | rfl | rfl | rfl | rfl | rfl <;>
        first
          | exact fdi
          | exact fdo
          | exact fdx
          | decide
    · intro s hm
      simp only [List.mem_cons, List.not_mem_nil, or_false, Prod.mk.injEq,
        false_and, false_or, true_and, Bool.true_eq_false] at hm
      rcases hm with rfl | rfl <;>
        first
          | exact ⟨⟨"Y_PLUS_DY\x7d".toList, rfl, by decide⟩, Or.inr (by decide)⟩
          | exact ⟨⟨"Y\x7d".toList, rfl, by decide⟩, Or.inl rfl⟩
  have hpass3 : slide_substitute_placeholders
        (slide_generate_ass_override in_ms out_ms) x y move_px
      = segsJoin [(false, "\\fad(".toList), (false, intToStr (pyClamp in_ms 0 4000)),
          (false, ",".toList), (false, intToStr (pyClamp out_ms 0 2000)),
          (false, ")\\move(".toList),
          (false, intToStr x), (false, ",".toList),
          (false, intToStr (y + move_px)), (false, ",".toList),
          (false, intToStr x), (false, ",".toList),
          (false, intToStr y), (false, ",0,".toList),
          (false, intToStr (pyClamp in_ms 0 4000)), (false, ")".toList)] := by
    unfold slide_substitute_placeholders
    rw [hpass2, hYP, pyReplace_segs]
    · simp +decide [segsJoin]
    · intro s hm
      simp only [List.mem_cons, List.not_mem_nil, or_false, Prod.mk.injEq,
        false_and, false_or, true_and, Bool.false_eq_true] at hm
      rcases hm with
        rfl | rfl | rfl | rfl | rfl | rfl | rfl | rfl | rfl | rfl | rfl | rfl | rfl | rfl <;>
        first
          | exact fdi
          | exact fdo
          | exact fdx
          | exact fdy
          | decide
    · intro s hm
      simp only [List.mem_cons, List.not_mem_nil, or_false, Prod.mk.injEq,
        false_and, false_or, true_and, Bool.true_eq_false] at hm
      rcases hm with rfl
      exact ⟨⟨"Y_PLUS_DY\x7d".toList, rfl, by decide⟩, Or.inl rfl⟩
  have hfree : ∀ c ∈ slide_substitute_placeholders
      (slide_generate_ass_override in_ms out_ms) x y move_px, c ≠ obrace := by
    rw [hpass3]
    intro c hc
    simp only [segsJoin, List.map_cons, List.map_nil, List.flatten, List.mem_append,
      List.append_nil, List.mem_cons] at hc
    rcases hc with hc | hc | hc | hc | hc | hc | hc | hc | hc | hc | hc | hc | hc | hc | hc <;>
      first
        | exact fdi c hc
        | exact fdo c hc
        | exact fdx c hc
        | exact fdy c hc
        | exact fdyp c hc
        | (revert c; decide)
  refine ⟨?_, ?_, ?_, ?_⟩
  · rw [hpass3]
    simp [segsJoin]
  · rw [hX]
    exact isSubStr_false_of_head_not_mem _ _ _ (fun hm => hfree obrace hm rfl)
  · rw [hY]
    exact isSubStr_false_of_head_not_mem _ _ _ (fun hm => hfree obrace hm rfl)
  · rw [hYP]
    exact isSubStr_false_of_head_not_mem _ _ _ (fun hm => hfree obrace hm rfl)

theorem isSubStr_self_append (pat r : Str) : isSubStr pat (pat ++ r) = true := by
  cases pat with
  | nil => cases r <;> simp [isSubStr, List.isPrefixOf]
  | cons c t =>
    rw [List.cons_append, isSubStr]
    apply Bool.or_eq_true_iff.2
    left
    rw [ List.isPrefixOf_iff_prefix]
    exact ( List.prefix_append _ _)

theorem isSubStr_append_left (pat a s : Str) (h : isSubStr pat s = true) :
    isSubStr pat (a ++ s) = true := by
  induction a with
  | nil => simpa using h
  | cons c t ih =>
    rw [List.cons_append, isSubStr, ih]
    simp

theorem wordIndices_nil : wordIndices [] = [] := rfl

/-- C9 counterexample to the claim as stated: with an unsupported mode but a
degenerate event (empty text), `_build_karaoke_text` returns the text
unchanged instead of raising the configuration error. -/
theorem C9_counterexample :
    pyLower (pyStrip "diagonal".toList) ≠ "even".toList ∧
    pyLower (pyStrip "diagonal".toList) ≠ "weighted".toList ∧
    build_karaoke_text
      ⟨"diagonal".toList, 0, 60, 400, none⟩ [] 1000 = Except.ok [] := by
  refine ⟨by decide, by decide, ?_⟩
  simp [build_karaoke_text, tokenizeWithNewlines, pyReplace, splitOnChar,
    findTokens, List.intercalate]

/-- C9 (amended): for every configuration whose normalized mode is neither
`even` nor `weighted`, applying word_reveal to an event that actually reaches
timing allocation (at least one word token and positive available time) fails
with a `ValueError` whose message contains the invalid mode and both legal
values `even` and `weighted`. -/
theorem C9_invalid_mode_error (p : WordRevealParams) (plain : Str) (dur : ℤ)
    (hm1 : pyLower (pyStrip p.mode) ≠ "even".toList)
    (hm2 : pyLower (pyStrip p.mode) ≠ "weighted".toList)
    (hw : wordIndices (tokenizeWithNewlines plain) ≠ [])
    (hd : 0 < dur - p.lead_in_ms) :
    build_karaoke_text p plain dur
      = Except.error (modeErrorMsg (pyLower (pyStrip p.mode))) ∧
    isSubStr (pyLower (pyStrip p.mode))
      (modeErrorMsg (pyLower (pyStrip p.mode))) = true ∧
    isSubStr "even".toList (modeErrorMsg (pyLower (pyStrip p.mode))) = true ∧
    isSubStr "weighted".toList (modeErrorMsg (pyLower (pyStrip p.mode))) = true := by
  have htok : tokenizeWithNewlines plain ≠ [] := by
    intro h
    exact hw (by rw [h, wordIndices_nil])
  refine ⟨?_, ?_, ?_, ?_⟩
  · unfold build_karaoke_text
    rw [if_neg htok, if_neg (by omega : ¬ max 0 (dur - p.lead_in_ms) ≤ 0), if_neg hw]
    unfold allocate_timing preAllocate allocWords
    rw [if_neg hm1, if_neg hm2]
    rfl
  · have hmsg : modeErrorMsg (pyLower (pyStrip p.mode))
        = ("Unsupported word_reveal mode ".toList ++ [aposChar])
          ++ (pyLower (pyStrip p.mode)
            ++ ([aposChar] ++ " (use ".toList ++ [aposChar] ++ "even".toList
              ++ [aposChar] ++ " or ".toList ++ [aposChar] ++ "weighted".toList
              ++ [aposChar] ++ ")".toList)) := by
      simp [modeErrorMsg, List.append_assoc]
    rw [hmsg]
    exact isSubStr_append_left _ _ _ (isSubStr_self_append _ _)
  · have hmsg : modeErrorMsg (pyLower (pyStrip p.mode))
        = ("Unsupported word_reveal mode ".toList ++ [aposChar]
            ++ pyLower (pyStrip p.mode) ++ [aposChar] ++ " (use ".toList ++ [aposChar])
          ++ ("even".toList
            ++ ([aposChar] ++ " or ".toList ++ [aposChar] ++ "weighted".toList
              ++ [aposChar] ++ ")".toList)) := by
      simp [modeErrorMsg, List.append_assoc]
    rw [hmsg]
    exact isSubStr_append_left _ _ _ (isSubStr_self_append _ _)
  · have hmsg : modeErrorMsg (pyLower (pyStrip p.mode))
        = ("Unsupported word_reveal mode ".toList ++ [aposChar]
            ++ pyLower (pyStrip p.mode) ++ [aposChar] ++ " (use ".toList ++ [aposChar]
            ++ "even".toList ++ [aposChar] ++ " or ".toList ++ [aposChar])
          ++ ("weighted".toList ++ ([aposChar] ++ ")".toList)) := by
      simp [modeErrorMsg, List.append_assoc]
    rw [hmsg]
    exact isSubStr_append_left _ _ _ (isSubStr_self_append _ _)

theorem C9_invalid_mode_error_witness :
    build_karaoke_text ⟨"diagonal".toList, 0, 60, 400, none⟩ "Hello".toList 1000
      = Except.error (modeErrorMsg (pyLower (pyStrip "diagonal".toList))) ∧
    isSubStr (pyLower (pyStrip "diagonal".toList))
      (modeErrorMsg (pyLower (pyStrip "diagonal".toList))) = true ∧
    isSubStr "even".toList
      (modeErrorMsg (pyLower (pyStrip "diagonal".toList))) = true ∧
    isSubStr "weighted".toList
      (modeErrorMsg (pyLower (pyStrip "diagonal".toList))) = true :=
  C9_invalid_mode_error ⟨"diagonal".toList, 0, 60, 400, none⟩ "Hello".toList 1000
    (by decide) (by decide)
    (by simp [tokenizeWithNewlines, pyReplace, splitOnChar, findTokens,
      matchWordTok, wordIndices, is_word_token, isWordChar, pyIsSpace,
      List.intercalate, aposChar])
    (by decide)

theorem pyRound_near (q : ℚ) : |((pyRound q : ℤ) : ℚ) - q| ≤ 1 / 2 := by
  have h1 : ((⌊q⌋ : ℤ) : ℚ) ≤ q := Int.floor_le q
  have h2 : q < (⌊q⌋ : ℤ) + 1 := Int.lt_floor_add_one q
  simp only [pyRound]
  split_ifs with ha hb hc
  · rw [abs_le]
    constructor <;> linarith
  · push_cast
    rw [abs_le]
    constructor <;> linarith
  · have hr : q - ((⌊q⌋ : ℤ) : ℚ) = 1 / 2 := le_antisymm (not_lt.1 hb) (not_lt.1 ha)
    rw [abs_le]
    constructor <;> linarith
  · have hr : q - ((⌊q⌋ : ℤ) : ℚ) = 1 / 2 := le_antisymm (not_lt.1 hb) (not_lt.1 ha)
    push_cast
    rw [abs_le]
    constructor <;> linarith

theorem roundSum_close (l : List ℚ) :
    |(((l.map pyRound).sum : ℤ) : ℚ) - l.sum| ≤ (l.length : ℚ) * (1 / 2) := by
  induction l with
  | nil => simp
  | cons q t ih =>
    simp only [List.map_cons, List.sum_cons, List.length_cons]
    have h1 := pyRound_near q
    have step : (((pyRound q + (t.map pyRound).sum : ℤ) : ℚ)) - (q + t.sum)
        = (((pyRound q : ℤ) : ℚ) - q)
          + ((((t.map pyRound).sum : ℤ) : ℚ) - t.sum) := by
      push_cast
      ring
    rw [step]
    refine le_trans (abs_add _ _) (le_trans (add_le_add h1 ih) (le_of_eq ?_))
    push_cast
    ring

theorem renormalize_sum_close (avail : ℤ) (p : List ℤ) (hpos : 0 < p.sum) :
    |(((renormalize avail p).sum : ℤ) : ℚ) - (avail : ℚ)|
      ≤ (p.length : ℚ) * (1 / 2) := by
  unfold renormalize
  rw [if_pos hpos]
  have hT : ((p.sum : ℤ) : ℚ) ≠ 0 := by
    exact_mod_cast (by omega : p.sum ≠ 0)
  have hmap : p.map (fun t : ℤ => pyRound ((t : ℚ) * ((avail : ℚ) / ((p.sum : ℤ) : ℚ))))
      = (p.map (fun t : ℤ => (t : ℚ) * ((avail : ℚ) / ((p.sum : ℤ) : ℚ)))).map pyRound := by
    rw [List.map_map]
    rfl
  have hcast : (p.map (Int.cast : ℤ → ℚ)).sum = ((p.sum : ℤ) : ℚ) := by
    induction p with
    | nil => simp
    | cons a t ih =>
      simp only [List.map_cons, List.sum_cons, ih]
      push_cast
      ring
  have hsum : (p.map (fun t : ℤ => (t : ℚ) * ((avail : ℚ) / ((p.sum : ℤ) : ℚ)))).sum
      = (avail : ℚ) := by
    rw [List.sum_map_mul_right, hcast, mul_comm, div_mul_cancel₀ _ hT]
  have hfin := roundSum_close
    (p.map (fun t : ℤ => (t : ℚ) * ((avail : ℚ) / ((p.sum : ℤ) : ℚ))))
  rw [hsum, List.length_map] at hfin
  rw [hmap]
  exact hfin

theorem setFold_const_length (v : ℤ) (xs : List ℕ) (acc : List ℤ) :
    (xs.foldl (fun a i => a.set i v) acc).length = acc.length := by
  induction xs generalizing acc with
  | nil => rfl
  | cons xh xt ih => simp only [List.foldl_cons, ih, List.length_set]

theorem setFold_pair_length (f : ℕ × ℤ → ℤ) (xs : List (ℕ × ℤ)) (acc : List ℤ) :
    (xs.foldl (fun a q => a.set q.1 (f q)) acc).length = acc.length := by
  induction xs generalizing acc with
  | nil => rfl
  | cons xh xt ih => simp only [List.foldl_cons, ih, List.length_set]

theorem clampStep_length (wis : List ℕ) (mn mx : ℤ) (l : List ℤ) :
    (clampStep wis mn mx l).length = l.length := by
  unfold clampStep
  induction wis generalizing l with
  | nil => rfl
  | cons xh xt ih => simp only [List.foldl_cons, ih, List.length_set]

theorem punctStep_length (tokens : List Str) (avail : ℤ) (l : List ℤ) :
    (punctStep tokens avail l).length = l.length := by
  unfold punctStep
  generalize punctIndices tokens = ps
  induction ps generalizing l with
  | nil => rfl
  | cons xh xt ih => simp only [List.foldl_cons, ih, List.length_set]

theorem allocWords_length (tokens : List Str) (wis : List ℕ) (avail : ℤ)
    (mode : Str) (l : List ℤ)
    (h : allocWords tokens wis avail mode = Except.ok l) :
    l.length = tokens.length := by
  unfold allocWords at h
  split_ifs at h with h1 h2
  · cases h
    rw [setFold_const_length]
    exact List.length_replicate _ _
  · cases h
    rw [setFold_pair_length]
    exact List.length_replicate _ _

theorem preAllocate_length (tokens : List Str) (wis : List ℕ) (avail : ℤ)
    (mode : Str) (mn mx : ℤ) (pre : List ℤ)
    (h : preAllocate tokens wis avail mode mn mx = Except.ok pre) :
    pre.length = tokens.length := by
  unfold preAllocate at h
  cases hw : allocWords tokens wis avail mode with
  | error e => rw [hw] at h; cases h
  | ok l =>
    rw [hw] at h
    simp only [Except.map] at h
    cases h
    rw [punctStep_length, clampStep_length]
    exact allocWords_length tokens wis avail mode l hw

/-- C1 (amended): whenever `_allocate_timing` succeeds with positive
`available_ms` and the total allocation entering the renormalization step is
positive (as the default `min_word_ms = 60` guarantees), the renormalized
per-token milliseconds sum to `available_ms` within an integer-rounding
tolerance of 1 ms per token. -/
theorem C1_karaoke_budget_conservation (tokens : List Str) (wis : List ℕ)
    (avail : ℤ) (mode : Str) (mn mx : ℤ) (pre out : List ℤ)
    (havail : 0 < avail)
    (hpre : preAllocate tokens wis avail mode mn mx = Except.ok pre)
    (hpos : 0 < pre.sum)
    (hout : allocate_timing tokens wis avail mode mn mx = Except.ok out) :
    (out.sum - avail).natAbs ≤ tokens.length := by
  have hout2 : out = renormalize avail pre := by
    unfold allocate_timing at hout
    rw [hpre] at hout
    simp only [Except.map, Except.ok.injEq] at hout
    exact hout.symm
  subst hout2
  have hlen := preAllocate_length tokens wis avail mode mn mx pre hpre
  have hq := renormalize_sum_close avail pre hpos
  rw [hlen] at hq
  have h2 : |(((renormalize avail pre).sum : ℤ) : ℚ) - (avail : ℚ)|
      ≤ (tokens.length : ℚ) := by
    refine le_trans hq ?_
    have : (0 : ℚ) ≤ (tokens.length : ℚ) := Nat.cast_nonneg _
    linarith
  have hcast : (((renormalize avail pre).sum - avail : ℤ) : ℚ)
      = (((renormalize avail pre).sum : ℤ) : ℚ) - (avail : ℚ) := by
    push_cast
    ring
  rw [← hcast, ← Int.cast_abs] at h2
  have h4 : |(renormalize avail pre).sum - avail| ≤ (tokens.length : ℤ) := by
    exact_mod_cast h2
  rw [Int.abs_eq_natAbs] at h4
  exact_mod_cast h4

theorem C1_karaoke_budget_conservation_witness :
    ((([1000, 1000] : List ℤ).sum - 2000).natAbs
      ≤ (["Hello".toList, "world".toList] : List Str).length) :=
  C1_karaoke_budget_conservation ["Hello".toList, "world".toList] [0, 1] 2000
    "even".toList 60 400 [400, 400] [1000, 1000] (by decide) (by rfl) (by decide)
    (by rfl)

/-- C1 counterexample to the claim as stated: with `min_word_ms = max_word_ms
= 0` a one-word token list with `available_ms = 10` gets the allocation
`[0]` (the renormalization step is skipped because the clamped total is 0),
which misses the 10 ms budget by more than 1 ms per token. -/
theorem C1_counterexample :
    allocate_timing ["Hi".toList] [0] 10 "even".toList 0 0 = Except.ok [0] ∧
    ¬ ((([0] : List ℤ).sum - 10).natAbs ≤ (["Hi".toList] : List Str).length) := by
  constructor
  · rfl
  · decide

theorem evenize_mono (x y : ℤ) (h : x ≤ y) : evenize x ≤ evenize y := by
  unfold evenize
  split_ifs <;> omega

theorem sizeExpr_mono_base (B B' : ℤ) (s : ℚ) (hs : 0 ≤ s) (h : B ≤ B') :
    evenize (max ⌈(B : ℚ) * s⌉ 64) ≤ evenize (max ⌈(B' : ℚ) * s⌉ 64) := by
  apply evenize_mono
  apply max_le_max _ le_rfl
  apply Int.ceil_le_ceil
  apply mul_le_mul_of_nonneg_right _ hs
  exact_mod_cast h

theorem sizeExpr_mono_scale (B : ℤ) (s s' : ℚ) (hB : 0 ≤ B) (hss : s ≤ s') :
    evenize (max ⌈(B : ℚ) * s⌉ 64) ≤ evenize (max ⌈(B : ℚ) * s'⌉ 64) := by
  apply evenize_mono
  apply max_le_max _ le_rfl
  apply Int.ceil_le_ceil
  apply mul_le_mul_of_nonneg_left hss
  exact_mod_cast hB

theorem measureEvents_ge_acc (w : Str → ℚ) (ascent descent : ℤ) (p : PresetCfg)
    (events : List Str) (acc : ℤ × ℤ) :
    acc.1 ≤ (events.foldl (fun acc text =>
        let t := normalize_whitespace (strip_ass_tags text)
        let t2 := wrap_text_to_width w t p.max_width_px
        let m := measure_multiline w ascent descent t2 p.line_spacing
        (max acc.1 m.1, max acc.2 m.2.1)) acc).1 ∧
    acc.2 ≤ (events.foldl (fun acc text =>
        let t := normalize_whitespace (strip_ass_tags text)
        let t2 := wrap_text_to_width w t p.max_width_px
        let m := measure_multiline w ascent descent t2 p.line_spacing
        (max acc.1 m.1, max acc.2 m.2.1)) acc).2 := by
  induction events generalizing acc with
  | nil => exact ⟨le_rfl, le_rfl⟩
  | cons e t ih =>
    simp only [List.foldl_cons]
    constructor
    · exact le_trans (le_max_left _ _) (ih _).1
    · exact le_trans (le_max_left _ _) (ih _).2

theorem measureEvents_nonneg (w : Str → ℚ) (ascent descent : ℤ) (p : PresetCfg)
    (events : List Str) :
    0 ≤ (measureEvents w ascent descent p events).1 ∧
    0 ≤ (measureEvents w ascent descent p events).2 :=
  measureEvents_ge_acc w ascent descent p events (0, 0)

/-- C7 (amended): with non-negative paddings, outline, shadow and safety
scale, increasing `safety_scale` weakly increases both output dimensions, and
increasing any one padding value weakly increases the corresponding dimension
(width for left/right padding, height for top/bottom padding). -/
theorem C7_size_monotonicity (w : Str → ℚ) (ascent descent : ℤ)
    (events : List Str) (p : PresetCfg) (s s' : ℚ) (δ : ℤ)
    (hpt : 0 ≤ p.pad_t) (hpr : 0 ≤ p.pad_r) (hpb : 0 ≤ p.pad_b)
    (hpl : 0 ≤ p.pad_l) (ho : 0 ≤ p.outline_px) (hsh : 0 ≤ p.shadow_px)
    (hs : 0 ≤ s) (hss : s ≤ s') (hδ : 0 ≤ δ) :
    ((compute_size w ascent descent p s events).width
        ≤ (compute_size w ascent descent p s' events).width ∧
      (compute_size w ascent descent p s events).height
        ≤ (compute_size w ascent descent p s' events).height) ∧
    (compute_size w ascent descent p s events).width
      ≤ (compute_size w ascent descent
          { p with pad_l := p.pad_l + δ } s events).width ∧
    (compute_size w ascent descent p s events).width
      ≤ (compute_size w ascent descent
          { p with pad_r := p.pad_r + δ } s events).width ∧
    (compute_size w ascent descent p s events).height
      ≤ (compute_size w ascent descent
          { p with pad_t := p.pad_t + δ } s events).height ∧
    (compute_size w ascent descent p s events).height
      ≤ (compute_size w ascent descent
          { p with pad_b := p.pad_b + δ } s events).height := by
  have hM := measureEvents_nonneg w ascent descent p events
  have hextra : (0 : ℤ) ≤ ⌈p.outline_px * 2 + p.shadow_px * 2⌉ := by
    apply Int.ceil_nonneg
    have : (0 : ℚ) ≤ p.outline_px * 2 := by linarith
    have : (0 : ℚ) ≤ p.shadow_px * 2 := by linarith
    linarith
  have hMEl : measureEvents w ascent descent { p with pad_l := p.pad_l + δ } events
      = measureEvents w ascent descent p events := rfl
  have hMEr : measureEvents w ascent descent { p with pad_r := p.pad_r + δ } events
      = measureEvents w ascent descent p events := rfl
  have hMEt : measureEvents w ascent descent { p with pad_t := p.pad_t + δ } events
      = measureEvents w ascent descent p events := rfl
  have hMEb : measureEvents w ascent descent { p with pad_b := p.pad_b + δ } events
      = measureEvents w ascent descent p events := rfl
  unfold compute_size finalizeSize
  rw [hMEl, hMEr, hMEt, hMEb]
  dsimp only
  refine ⟨⟨?_, ?_⟩, ?_, ?_, ?_, ?_⟩
  · exact sizeExpr_mono_scale _ _ _ (by linarith [hM.1]) hss
  · exact sizeExpr_mono_scale _ _ _ (by linarith [hM.2]) hss
  · exact sizeExpr_mono_base _ _ _ hs (by omega)
  · exact sizeExpr_mono_base _ _ _ hs (by omega)
  · exact sizeExpr_mono_base _ _ _ hs (by omega)
  · exact sizeExpr_mono_base _ _ _ hs (by omega)

theorem C7_size_monotonicity_witness :
    ((compute_size (fun s : Str => (10 * s.length : ℚ)) 30 30
        ⟨0, 0, 3, 3, 3, 3, 0, 0⟩ (6 / 5) ["hello".toList]).width
      ≤ (compute_size (fun s : Str => (10 * s.length : ℚ)) 30 30
        ⟨0, 0, 3, 3, 3, 3, 0, 0⟩ (121 / 100) ["hello".toList]).width ∧
      (compute_size (fun s : Str => (10 * s.length : ℚ)) 30 30
        ⟨0, 0, 3, 3, 3, 3, 0, 0⟩ (6 / 5) ["hello".toList]).height
      ≤ (compute_size (fun s : Str => (10 * s.length : ℚ)) 30 30
        ⟨0, 0, 3, 3, 3, 3, 0, 0⟩ (121 / 100) ["hello".toList]).height) ∧
    (compute_size (fun s : Str => (10 * s.length : ℚ)) 30 30
        ⟨0, 0, 3, 3, 3, 3, 0, 0⟩ (6 / 5) ["hello".toList]).width
      ≤ (compute_size (fun s : Str => (10 * s.length : ℚ)) 30 30
        ⟨0, 0, 3, 3, 3, 4, 0, 0⟩ (6 / 5) ["hello".toList]).width ∧
    (compute_size (fun s : Str => (10 * s.length : ℚ)) 30 30
        ⟨0, 0, 3, 3, 3, 3, 0, 0⟩ (6 / 5) ["hello".toList]).width
      ≤ (compute_size (fun s : Str => (10 * s.length : ℚ)) 30 30
        ⟨0, 0, 3, 4, 3, 3, 0, 0⟩ (6 / 5) ["hello".toList]).width ∧
    (compute_size (fun s : Str => (10 * s.length : ℚ)) 30 30
        ⟨0, 0, 3, 3, 3, 3, 0, 0⟩ (6 / 5) ["hello".toList]).height
      ≤ (compute_size (fun s : Str => (10 * s.length : ℚ)) 30 30
        ⟨0, 0, 4, 3, 3, 3, 0, 0⟩ (6 / 5) ["hello".toList]).height ∧
    (compute_size (fun s : Str => (10 * s.length : ℚ)) 30 30
        ⟨0, 0, 3, 3, 3, 3, 0, 0⟩ (6 / 5) ["hello".toList]).height
      ≤ (compute_size (fun s : Str => (10 * s.length : ℚ)) 30 30
        ⟨0, 0, 3, 3, 4, 3, 0, 0⟩ (6 / 5) ["hello".toList]).height :=
  C7_size_monotonicity (fun s : Str => (10 * s.length : ℚ)) 30 30
    ["hello".toList] ⟨0, 0, 3, 3, 3, 3, 0, 0⟩ (6 / 5) (121 / 100) 1
    (by decide) (by decide) (by decide) (by decide) (by decide) (by decide)
    (by decide) (by decide) (by decide)

/-- C7 counterexample to the claim as stated: a strictly larger safety scale
(1.2 → 1.21) leaves both computed dimensions unchanged on a perfectly
ordinary non-degenerate input, so the increase is not strict. -/
theorem C7_counterexample :
    (6 / 5 : ℚ) < 121 / 100 ∧
    compute_size (fun s : Str => (10 * s.length : ℚ)) 30 30
      ⟨0, 0, 3, 3, 3, 3, 0, 0⟩ (6 / 5) ["hello".toList] = ⟨68, 80⟩ ∧
    compute_size (fun s : Str => (10 * s.length : ℚ)) 30 30
      ⟨0, 0, 3, 3, 3, 3, 0, 0⟩ (121 / 100) ["hello".toList] = ⟨68, 80⟩ := by
  have hm : measureEvents (fun s : Str => (10 * s.length : ℚ)) 30 30
      ⟨0, 0, 3, 3, 3, 3, 0, 0⟩ ["hello".toList] = (50, 60) := by
    simp only [measureEvents, List.foldl_cons, List.foldl_nil]
    simp +decide [strip_ass_tags, normalize_whitespace, pyReplace, collapseWs, pyStrip,
      dropTrailWs, pyIsSpace, isHT, wrap_text_to_width, measure_multiline,
      splitOnChar, listMaxInt, joinNl, wrapLines, wrapLine, List.intercalate]
  refine ⟨by norm_num, ?_, ?_⟩
  · unfold compute_size
    rw [hm]
    unfold finalizeSize evenize
    have c1 : ⌈(336 / 5 : ℚ)⌉ = 68 := by
      rw [Int.ceil_eq_iff]
      norm_num
    have c2 : ⌈(396 / 5 : ℚ)⌉ = 80 := by
      rw [Int.ceil_eq_iff]
      norm_num
    norm_num [c1, c2]
  · unfold compute_size
    rw [hm]
    unfold finalizeSize evenize
    have c1 : ⌈(1694 / 25 : ℚ)⌉ = 68 := by
      rw [Int.ceil_eq_iff]
      norm_num
    have c2 : ⌈(3993 / 50 : ℚ)⌉ = 80 := by
      rw [Int.ceil_eq_iff]
      norm_num
    norm_num [c1, c2]

/-- The whitespace-delimited words of one raw input line, as the wrapper sees
them (empty for blank lines). -/
def lineWords (raw : Str) : List Str :=
  if pyStrip raw = [] then [] else splitOnChar ' ' (pyStrip raw)

/-- All words of the input text after normalization, the units the wrapper
never splits. -/
def allWords (text : Str) : List Str :=
  ((splitOnChar '\n' (normalize_whitespace text)).map lineWords).flatten

theorem joinSp_append_single (current : List Str) (word : Str)
    (h : current ≠ []) :
    joinSp (current ++ [word]) = joinSp current ++ ' ' :: word := by
  induction current with
  | nil => exact absurd rfl h
  | cons x t ih =>
    cases t with
    | nil => rfl
    | cons y t2 =>
      have h2 := ih (by simp)
      show x ++ ' ' :: joinSp ((y :: t2) ++ [word])
        = (x ++ ' ' :: joinSp (y :: t2)) ++ ' ' :: word
      rw [h2]
      simp

theorem greedy_ne_nil (w : Str → ℚ) (maxw : ℤ) :
    ∀ (ws current : List Str), greedyWrap w maxw current ws ≠ [] := by
  intro ws
  induction ws with
  | nil => intro current; simp [greedyWrap]
  | cons word rest ih =>
    intro current
    rw [greedyWrap]
    split
    · exact ih _
    · simp

/-- The prefix certificate carried by the greedy wrapper: every prefix of two
or more words of the line was accepted against the budget. -/
def wrapCert (w : Str → ℚ) (maxw : ℤ) (us : List Str) : Prop :=
  ∀ i, 2 ≤ i → i ≤ us.length → w (joinSp (us.take i)) ≤ (maxw : ℚ)

theorem wrapCert_singleton (w : Str → ℚ) (maxw : ℤ) (u : Str) :
    wrapCert w maxw [u] := by
  intro i h2 hlen
  simp at hlen
  omega

theorem wrapCert_extend (w : Str → ℚ) (maxw : ℤ) (us : List Str) (word : Str)
    (hc : wrapCert w maxw us)
    (hfit : w (joinSp (us ++ [word])) ≤ (maxw : ℚ)) :
    wrapCert w maxw (us ++ [word]) := by
  intro i h2 hlen
  rw [List.length_append, List.length_cons, List.length_nil] at hlen
  rcases lt_or_eq_of_le hlen with hlt | heq
  · have hle : i ≤ us.length := by omega
    rw [List.take_append_of_le_length hle]
    exact hc i h2 hle
  · have hi : i = (us ++ [word]).length := by
      simp only [List.length_append, List.length_cons, List.length_nil]
      omega
    rw [hi, List.take_length]
    exact hfit

/-- Structure of the greedy wrapper's output: every produced line is the
space-join of a nonempty block of input words, and every prefix of two or
more words of that block was measured and accepted. -/
theorem greedy_struct (w : Str → ℚ) (maxw : ℤ) :
    ∀ (ws current : List Str), current ≠ [] → wrapCert w maxw current →
    ∀ l ∈ greedyWrap w maxw current ws,
    ∃ us, us ≠ [] ∧ l = joinSp us ∧
      (∀ u ∈ us, u ∈ current ∨ u ∈ ws) ∧ wrapCert w maxw us := by
  intro ws
  induction ws with
  | nil =>
    intro current hne hc l hl
    simp only [greedyWrap, List.mem_singleton] at hl
    exact ⟨current, hne, hl, fun u hu => Or.inl hu, hc⟩
  | cons word rest ih =>
    intro current hne hc l hl
    rw [greedyWrap] at hl
    split at hl
    · rename_i hfit
      obtain ⟨us, hus, hl2, hmem, hcert⟩ := ih (current ++ [word]) (by simp)
        (wrapCert_extend w maxw current word hc hfit) l hl
      refine ⟨us, hus, hl2, ?_, hcert⟩
      intro u hu
      rcases hmem u hu with hm | hm
      · rcases List.mem_append.1 hm with hm2 | hm2
        · exact Or.inl hm2
        · simp only [List.mem_singleton] at hm2
          exact Or.inr (hm2 ▸ List.mem_cons_self _ _)
      · exact Or.inr (List.mem_cons_of_mem _ hm)
    · rcases List.mem_cons.1 hl with rfl | hl2
      · exact ⟨current, hne, rfl, fun u hu => Or.inl hu, hc⟩
      · obtain ⟨us, hus, hl3, hmem, hcert⟩ := ih [word] (by simp)
          (wrapCert_singleton w maxw word) l hl2
        refine ⟨us, hus, hl3, ?_, hcert⟩
        intro u hu
        rcases hmem u hu with hm | hm
        · simp only [List.mem_singleton] at hm
          exact Or.inr (hm ▸ List.mem_cons_self _ _)
        · exact Or.inr (List.mem_cons_of_mem _ hm)

theorem greedy_current_oversized (w : Str → ℚ) (maxw : ℤ) (u : Str)
    (hmono : ∀ a b : Str, w a ≤ w (a ++ b) ∧ w b ≤ w (a ++ b))
    (hover : (maxw : ℚ) < w u) :
    ∀ ws, u ∈ greedyWrap w maxw [u] ws := by
  intro ws
  induction ws with
  | nil => simp [greedyWrap, joinSp, joinChar]
  | cons word rest _ =>
    rw [greedyWrap]
    have hcand : joinSp ([u] ++ [word]) = u ++ ' ' :: word :=
      joinSp_append_single [u] word (by simp)
    have hge : w u ≤ w (joinSp ([u] ++ [word])) := by
      rw [hcand]
      exact (hmono u (' ' :: word)).1
    rw [if_neg (by push_neg; calc (maxw : ℚ) < w u := hover
      _ ≤ _ := hge)]
    simp [joinSp, joinChar]

theorem greedy_oversized_mem (w : Str → ℚ) (maxw : ℤ)
    (hmono : ∀ a b : Str, w a ≤ w (a ++ b) ∧ w b ≤ w (a ++ b)) :
    ∀ (ws current : List Str), current ≠ [] →
    ∀ u ∈ ws, (maxw : ℚ) < w u →
    u ∈ greedyWrap w maxw current ws := by
  intro ws
  induction ws with
  | nil =>
    intro current hne u hu
    cases hu
  | cons word rest ih =>
    intro current hne u hu hover
    rcases List.mem_cons.1 hu with rfl | humem
    · have hcand : joinSp (current ++ [u]) = joinSp current ++ ' ' :: u :=
        joinSp_append_single current u hne
      have hge : w u ≤ w (joinSp (current ++ [u])) := by
        rw [hcand]
        have : joinSp current ++ ' ' :: u = (joinSp current ++ [' ']) ++ u := by
          simp
        rw [this]
        exact (hmono (joinSp current ++ [' ']) u).2
      rw [greedyWrap, if_neg (by push_neg; linarith)]
      exact List.mem_cons_of_mem _ (greedy_current_oversized w maxw u hmono hover rest)
    · rw [greedyWrap]
      split
      · exact ih (current ++ [word]) (by simp) u humem hover
      · exact List.mem_cons_of_mem _ (ih [word] (by simp) u humem hover)

theorem splitOnChar_parts_no_sep (c : Char) (s : Str) :
    ∀ p ∈ splitOnChar c s, c ∉ p := by
  induction s with
  | nil => simp [splitOnChar]
  | cons x t ih =>
    intro p hp
    rw [splitOnChar] at hp
    by_cases hx : x = c
    · rw [if_pos hx] at hp
      rcases List.mem_cons.1 hp with rfl | hp2
      · simp
      · exact ih p hp2
    · rw [if_neg hx] at hp
      rcases hsp : splitOnChar c t with _ | ⟨h, t2⟩
      · exact absurd hsp (splitOnChar_ne_nil c t)
      · rw [hsp] at hp
        rcases List.mem_cons.1 hp with rfl | hp2
        · intro hmem
          rcases List.mem_cons.1 hmem with heq | hmem2
          · exact hx heq.symm
          · exact ih h (hsp ▸ List.mem_cons_self _ _) hmem2
        · exact ih p (hsp ▸ List.mem_cons_of_mem _ hp2)

theorem splitOnChar_parts_chars (c : Char) (s : Str) :
    ∀ p ∈ splitOnChar c s, ∀ x ∈ p, x ∈ s := by
  induction s with
  | nil =>
    intro p hp
    simp only [splitOnChar, List.mem_singleton] at hp
    subst hp
    simp
  | cons y t ih =>
    intro p hp x hx
    rw [splitOnChar] at hp
    by_cases hy : y = c
    · rw [if_pos hy] at hp
      rcases List.mem_cons.1 hp with rfl | hp2
      · cases hx
      · exact List.mem_cons_of_mem _ (ih p hp2 x hx)
    · rw [if_neg hy] at hp
      rcases hsp : splitOnChar c t with _ | ⟨h, t2⟩
      · exact absurd hsp (splitOnChar_ne_nil c t)
      · rw [hsp] at hp
        rcases List.mem_cons.1 hp with rfl | hp2
        · rcases List.mem_cons.1 hx with rfl | hx2
          · exact List.mem_cons_self _ _
          · exact List.mem_cons_of_mem _
              (ih h (hsp ▸ List.mem_cons_self _ _) x hx2)
        · exact List.mem_cons_of_mem _
            (ih p (hsp ▸ List.mem_cons_of_mem _ hp2) x hx)

theorem splitOnChar_no_sep (c : Char) (s : Str) (h : c ∉ s) :
    splitOnChar c s = [s] := by
  induction s with
  | nil => rfl
  | cons x t ih =>
    have hx : ¬(x = c) := fun e => h (e ▸ List.mem_cons_self _ _)
    rw [splitOnChar, if_neg hx, ih (fun hm => h (List.mem_cons_of_mem _ hm))]

theorem splitOnChar_append_sep (c : Char) (l m : Str) (hl : c ∉ l) :
    splitOnChar c (l ++ c :: m) = l :: splitOnChar c m := by
  induction l with
  | nil => simp [splitOnChar]
  | cons x t ih =>
    have hx : ¬(x = c) := fun e => hl (e ▸ List.mem_cons_self _ _)
    rw [List.cons_append, splitOnChar, if_neg hx,
      ih (fun hm => hl (List.mem_cons_of_mem _ hm))]

theorem splitJoin_nl (L : List Str) (hL : L ≠ []) (hc : ∀ l ∈ L, '\n' ∉ l) :
    splitOnChar '\n' (joinNl L) = L := by
  induction L with
  | nil => exact absurd rfl hL
  | cons l t ih =>
    cases t with
    | nil =>
      show splitOnChar '\n' l = [l]
      exact splitOnChar_no_sep _ _ (hc l (List.mem_cons_self _ _))
    | cons l2 t2 =>
      show splitOnChar '\n' (l ++ '\n' :: joinNl (l2 :: t2)) = _
      rw [splitOnChar_append_sep _ _ _ (hc l (List.mem_cons_self _ _)),
        ih (by simp) (fun x hx => hc x (List.mem_cons_of_mem _ hx))]

theorem mem_of_mem_pyStrip (s : Str) (x : Char) (h : x ∈ pyStrip s) : x ∈ s := by
  unfold pyStrip dropTrailWs at h
  have h1 := (List.dropWhile_sublist (p := pyIsSpace)
    (l := (s.dropWhile pyIsSpace).reverse)).mem (List.mem_reverse.1 h)
  have h2 := (List.dropWhile_sublist (p := pyIsSpace) (l := s)).mem
    (List.mem_reverse.1 (by simpa using h1))
  exact h2

theorem mem_joinSp (us : List Str) (x : Char) (h : x ∈ joinSp us) :
    x = ' ' ∨ ∃ u ∈ us, x ∈ u := by
  induction us with
  | nil => cases h
  | cons u t ih =>
    cases t with
    | nil =>
      right
      exact ⟨u, List.mem_cons_self _ _, h⟩
    | cons v t2 =>
      rw [show joinSp (u :: v :: t2) = u ++ ' ' :: joinSp (v :: t2) from rfl] at h
      rcases List.mem_append.1 h with hm | hm
      · exact Or.inr ⟨u, List.mem_cons_self _ _, hm⟩
      · rcases List.mem_cons.1 hm with rfl | hm2
        · exact Or.inl rfl
        · rcases ih hm2 with hsp | ⟨u2, hu2, hx2⟩
          · exact Or.inl hsp
          · exact Or.inr ⟨u2, List.mem_cons_of_mem _ hu2, hx2⟩

theorem wrapLine_ne_nil (w : Str → ℚ) (maxw : ℤ) (raw : Str) :
    wrapLine w maxw raw ≠ [] := by
  unfold wrapLine
  split
  · simp
  · split
    · rename_i heq
      exact absurd heq (splitOnChar_ne_nil _ _)
    · exact greedy_ne_nil w maxw _ _

theorem wrapLines_ne_nil (w : Str → ℚ) (maxw : ℤ) (t : Str) :
    wrapLines w maxw t ≠ [] := by
  unfold wrapLines
  rcases hsp : splitOnChar '\n' t with _ | ⟨h, t2⟩
  · exact absurd hsp (splitOnChar_ne_nil _ _)
  · simp only [List.map_cons, List.flatten_cons]
    intro he
    rcases List.append_eq_nil.1 he with ⟨h1, -⟩
    exact wrapLine_ne_nil w maxw h h1

theorem mem_wrapLine_chars (w : Str → ℚ) (maxw : ℤ) (raw l : Str)
    (hl : l ∈ wrapLine w maxw raw) (x : Char) (hx : x ∈ l) :
    x = ' ' ∨ x ∈ raw := by
  unfold wrapLine at hl
  split at hl
  · simp only [List.mem_singleton] at hl
    subst hl
    cases hx
  · rename_i hne
    rcases hsp : splitOnChar ' ' (pyStrip raw) with _ | ⟨first, ws⟩
    · exact absurd hsp (splitOnChar_ne_nil _ _)
    · rw [hsp] at hl
      obtain ⟨us, -, rfl, hmem, -⟩ := greedy_struct w maxw ws [first] (by simp)
        (wrapCert_singleton w maxw first) l hl
      rcases mem_joinSp us x hx with rfl | ⟨u, hu, hxu⟩
      · exact Or.inl rfl
      · right
        have humem : u ∈ splitOnChar ' ' (pyStrip raw) := by
          rw [hsp]
          rcases hmem u hu with hm | hm
          · have he : u = first := by simpa using hm
            rw [he]
            exact List.mem_cons_self _ _
          · exact List.mem_cons_of_mem _ hm
        exact mem_of_mem_pyStrip raw x
          (splitOnChar_parts_chars ' ' (pyStrip raw) u humem x hxu)

theorem wrapLines_no_nl (w : Str → ℚ) (maxw : ℤ) (t : Str) :
    ∀ l ∈ wrapLines w maxw t, '\n' ∉ l := by
  intro l hl
  unfold wrapLines at hl
  obtain ⟨ls, hls, hlmem⟩ := List.mem_flatten.1 hl
  obtain ⟨raw, hraw, rfl⟩ := List.mem_map.1 hls
  intro hnl
  rcases mem_wrapLine_chars w maxw raw l hlmem '\n' hnl with h | h
  · cases h
  · exact splitOnChar_parts_no_sep '\n' t raw hraw h

theorem wrap_lines_eq (w : Str → ℚ) (maxw : ℤ) (text : Str) (hpos : 0 < maxw) :
    splitOnChar '\n' (wrap_text_to_width w text maxw)
      = wrapLines w maxw (normalize_whitespace text) := by
  unfold wrap_text_to_width
  rw [if_neg (by omega)]
  exact splitJoin_nl _ (wrapLines_ne_nil w maxw _) (wrapLines_no_nl w maxw _)

theorem mem_allWords_of (text : Str) (raw u : Str)
    (hraw : raw ∈ splitOnChar '\n' (normalize_whitespace text))
    (hu : u ∈ lineWords raw) : u ∈ allWords text := by
  unfold allWords
  exact List.mem_flatten.2 ⟨lineWords raw, List.mem_map_of_mem _ hraw, hu⟩

/-- C2: with a measurement function that is monotone under concatenation and
a positive budget, every non-empty output line of the wrapper either fits the
budget or is a single unsplit input word, and every input word wider than the
budget appears verbatim, alone on its own output line. -/
theorem C2_wrap_width_invariant (w : Str → ℚ) (text : Str) (maxw : ℤ)
    (hmono : ∀ a b : Str, w a ≤ w (a ++ b) ∧ w b ≤ w (a ++ b))
    (hpos : 0 < maxw) :
    (∀ l ∈ splitOnChar '\n' (wrap_text_to_width w text maxw), l ≠ [] →
      w l ≤ (maxw : ℚ) ∨ l ∈ allWords text) ∧
    (∀ u ∈ allWords text, (maxw : ℚ) < w u →
      u ∈ splitOnChar '\n' (wrap_text_to_width w text maxw)) := by
  rw [wrap_lines_eq w maxw text hpos]
  constructor
  · intro l hl hlne
    unfold wrapLines at hl
    obtain ⟨ls, hls, hlmem⟩ := List.mem_flatten.1 hl
    obtain ⟨raw, hraw, rfl⟩ := List.mem_map.1 hls
    unfold wrapLine at hlmem
    split at hlmem
    · simp only [List.mem_singleton] at hlmem
      exact absurd hlmem hlne
    · rename_i hne
      rcases hsp : splitOnChar ' ' (pyStrip raw) with _ | ⟨first, ws⟩
      · exact absurd hsp (splitOnChar_ne_nil _ _)
      · rw [hsp] at hlmem
        obtain ⟨us, husne, rfl, hmem, hcert⟩ := greedy_struct w maxw ws [first]
          (by simp) (wrapCert_singleton w maxw first) l hlmem
        match us, husne with
        | [u], _ =>
          right
          have hu : u ∈ lineWords raw := by
            unfold lineWords
            rw [if_neg hne, hsp]
            rcases hmem u (List.mem_cons_self _ _) with hm | hm
            · have he : u = first := by simpa using hm
              rw [he]
              exact List.mem_cons_self _ _
            · exact List.mem_cons_of_mem _ hm
          have : joinSp [u] = u := rfl
          rw [this]
          exact mem_allWords_of text raw u hraw hu
        | u1 :: u2 :: t, _ =>
          left
          have hlen : 2 ≤ (u1 :: u2 :: t).length := by simp
          have := hcert (u1 :: u2 :: t).length hlen le_rfl
          rwa [List.take_length] at this
  · intro u hu hover
    unfold allWords at hu
    obtain ⟨ls, hls, humem⟩ := List.mem_flatten.1 hu
    obtain ⟨raw, hraw, rfl⟩ := List.mem_map.1 hls
    unfold lineWords at humem
    split at humem
    · cases humem
    · rename_i hne
      rcases hsp : splitOnChar ' ' (pyStrip raw) with _ | ⟨first, ws⟩
      · exact absurd hsp (splitOnChar_ne_nil _ _)
      · rw [hsp] at humem
        have hwl : u ∈ wrapLine w maxw raw := by
          unfold wrapLine
          rw [if_neg hne, hsp]
          rcases List.mem_cons.1 humem with rfl | hm
          · exact greedy_current_oversized w maxw u hmono hover ws
          · exact greedy_oversized_mem w maxw hmono ws [first] (by simp) u hm hover
        unfold wrapLines
        exact List.mem_flatten.2
          ⟨wrapLine w maxw raw, List.mem_map_of_mem _ hraw, hwl⟩

theorem C2_wrap_width_invariant_witness :
    (∀ l ∈ splitOnChar '\n'
        (wrap_text_to_width (fun s : Str => (10 * s.length : ℚ))
          "abc de fghizzzzzzzzzz jk".toList 100),
      l ≠ [] →
      (fun s : Str => (10 * s.length : ℚ)) l ≤ ((100 : ℤ) : ℚ) ∨
        l ∈ allWords "abc de fghizzzzzzzzzz jk".toList) ∧
    (∀ u ∈ allWords "abc de fghizzzzzzzzzz jk".toList,
      ((100 : ℤ) : ℚ) < (fun s : Str => (10 * s.length : ℚ)) u →
      u ∈ splitOnChar '\n'
        (wrap_text_to_width (fun s : Str => (10 * s.length : ℚ))
          "abc de fghizzzzzzzzzz jk".toList 100)) :=
  C2_wrap_width_invariant (fun s : Str => (10 * s.length : ℚ))
    "abc de fghizzzzzzzzzz jk".toList 100
    (fun a b => by
      constructor <;>
      · simp only [List.length_append]
        push_cast
        have ha : (0 : ℚ) ≤ a.length := Nat.cast_nonneg _
        have hb : (0 : ℚ) ≤ b.length := Nat.cast_nonneg _
        linarith)
    (by decide)

/-! ### Wrap idempotence (C8): joined-output structure -/

theorem getLast?_mem_self (l : Str) (x : Char) (h : l.getLast? = some x) : x ∈ l := by
  rw [← List.head?_reverse l] at h
  exact List.mem_reverse.1 (List.mem_of_mem_head? h)

theorem mem_joinChar (c : Char) (us : List Str) (x : Char) (h : x ∈ joinChar c us) :
    x = c ∨ ∃ u ∈ us, x ∈ u := by
  induction us with
  | nil => cases h
  | cons u t ih =>
    cases t with
    | nil => exact Or.inr ⟨u, List.mem_cons_self _ _, h⟩
    | cons v t2 =>
      rw [show joinChar c (u :: v :: t2) = u ++ c :: joinChar c (v :: t2) from rfl] at h
      rcases List.mem_append.1 h with hm | hm
      · exact Or.inr ⟨u, List.mem_cons_self _ _, hm⟩
      · rcases List.mem_cons.1 hm with rfl | hm2
        · exact Or.inl rfl
        · rcases ih hm2 with hsp | ⟨u2, hu2, hx2⟩
          · exact Or.inl hsp
          · exact Or.inr ⟨u2, List.mem_cons_of_mem _ hu2, hx2⟩

theorem mem_joinNl (L : List Str) (x : Char) (h : x ∈ joinNl L) :
    x = '\n' ∨ ∃ l ∈ L, x ∈ l := mem_joinChar '\n' L x h

theorem splitJoinChar (c : Char) (L : List Str) (hL : L ≠ [])
    (hc : ∀ l ∈ L, c ∉ l) : splitOnChar c (joinChar c L) = L := by
  induction L with
  | nil => exact absurd rfl hL
  | cons l t ih =>
    cases t with
    | nil =>
      show splitOnChar c l = [l]
      exact splitOnChar_no_sep _ _ (hc l (List.mem_cons_self _ _))
    | cons l2 t2 =>
      show splitOnChar c (l ++ c :: joinChar c (l2 :: t2)) = _
      rw [splitOnChar_append_sep _ _ _ (hc l (List.mem_cons_self _ _)),
        ih (by simp) (fun x hx => hc x (List.mem_cons_of_mem _ hx))]

theorem joinChar_head (c : Char) (u : Str) (rest : List Str) (hu : u ≠ []) :
    (joinChar c (u :: rest)).head? = u.head? := by
  cases rest with
  | nil => rfl
  | cons v t =>
    show (u ++ c :: joinChar c (v :: t)).head? = u.head?
    cases u with
    | nil => exact absurd rfl hu
    | cons a u2 => rfl

theorem joinNl_head (u : Str) (rest : List Str) (hu : u ≠ []) :
    (joinNl (u :: rest)).head? = u.head? := joinChar_head '\n' u rest hu

theorem joinChar_append_single (c : Char) (current : List Str) (word : Str)
    (h : current ≠ []) :
    joinChar c (current ++ [word]) = joinChar c current ++ c :: word := by
  induction current with
  | nil => exact absurd rfl h
  | cons x t ih =>
    cases t with
    | nil => rfl
    | cons y t2 =>
      have h2 := ih (by simp)
      show x ++ c :: joinChar c ((y :: t2) ++ [word])
        = (x ++ c :: joinChar c (y :: t2)) ++ c :: word
      rw [h2]
      simp

theorem joinChar_last_single (c : Char) (L0 : List Str) (u : Str) (hu : u ≠ []) :
    (joinChar c (L0 ++ [u])).getLast? = u.getLast? := by
  cases L0 with
  | nil => rfl
  | cons a t =>
    rw [joinChar_append_single c (a :: t) u (by simp),
      List.getLast?_append_of_ne_nil _ (by simp),
      show c :: u = [c] ++ u from rfl, List.getLast?_append_of_ne_nil _ hu]

theorem joinNl_last_single (L0 : List Str) (u : Str) (hu : u ≠ []) :
    (joinNl (L0 ++ [u])).getLast? = u.getLast? := joinChar_last_single '\n' L0 u hu

theorem joinChar_getLast (c : Char) : ∀ (L : List Str), L ≠ [] →
    (∀ v ∈ L, v ≠ []) → ∃ u ∈ L, (joinChar c L).getLast? = u.getLast? := by
  intro L
  induction L with
  | nil => exact fun h _ => absurd rfl h
  | cons u t ih =>
    intro _ hv
    cases t with
    | nil => exact ⟨u, List.mem_cons_self _ _, rfl⟩
    | cons v t2 =>
      obtain ⟨u2, hu2, hJ⟩ := ih (by simp) (fun x hx => hv x (List.mem_cons_of_mem _ hx))
      have hvne : v ≠ [] := hv v (List.mem_cons_of_mem _ (List.mem_cons_self _ _))
      have hJne : joinChar c (v :: t2) ≠ [] := by
        intro he
        have hh := joinChar_head c v t2 hvne
        rw [he] at hh
        cases v with
        | nil => exact hvne rfl
        | cons b v2 => simp at hh
      refine ⟨u2, List.mem_cons_of_mem _ hu2, ?_⟩
      show (u ++ c :: joinChar c (v :: t2)).getLast? = u2.getLast?
      rw [List.getLast?_append_of_ne_nil _ (by simp),
        show c :: joinChar c (v :: t2) = [c] ++ joinChar c (v :: t2) from rfl,
        List.getLast?_append_of_ne_nil _ hJne, hJ]

theorem pyReplace_id_of_not_mem (p : Char) (pt rep : Str) (s : Str) (h : p ∉ s) :
    pyReplace (p :: pt) rep s = s := by
  induction s with
  | nil => simp [pyReplace]
  | cons c t ih =>
    have hc : ¬(c = p) := fun e => h (e ▸ List.mem_cons_self _ _)
    have hnp : ¬((p :: pt) ≠ [] ∧ (p :: pt).isPrefixOf (c :: t) = true) := by
      rintro ⟨-, hpre⟩
      rw [isPrefixOf_cons₂] at hpre
      simp only [Bool.and_eq_true, beq_iff_eq] at hpre
      exact hc hpre.1.symm
    rw [pyReplace_cons_neg _ _ _ _ hnp, ih (fun hm => h (List.mem_cons_of_mem _ hm))]

theorem chain_of_inf (R : Char → Char → Prop) (l₁ l₂ : Str) (h : l₁ <:+: l₂)
    (hc : List.Chain' R l₂) : List.Chain' R l₁ := by
  obtain ⟨s, t, rfl⟩ := h
  exact (List.chain'_append.1 (List.chain'_append.1 hc).1).2.1

theorem first_sep_decomp (c : Char) (s : Str) (h : c ∈ s) :
    ∃ l m, s = l ++ c :: m ∧ c ∉ l := by
  induction s with
  | nil => cases h
  | cons x t ih =>
    by_cases hx : x = c
    · exact ⟨[], t, by rw [hx]; rfl, by simp⟩
    · rcases List.mem_cons.1 h with he | hm
      · exact absurd he.symm hx
      · obtain ⟨l, m, rfl, hl⟩ := ih hm
        refine ⟨x :: l, m, rfl, ?_⟩
        intro hcm
        rcases List.mem_cons.1 hcm with he | hm2
        · exact hx he.symm
        · exact hl hm2

theorem dropWhile_head_false (p : Char → Bool) :
    ∀ (l : Str) (d : Char) (r : Str), l.dropWhile p = d :: r → p d = false := by
  intro l
  induction l with
  | nil => intro d r h; cases h
  | cons x t ih =>
    intro d r h
    rw [List.dropWhile_cons] at h
    split at h
    · exact ih d r h
    · rename_i hpx
      simp only [Bool.not_eq_true] at hpx
      injection h with h1 _
      exact h1 ▸ hpx

/-- No two adjacent spaces: the binary relation whose `Chain'` closure (together
with absence of tabs) characterizes the fixed points of `collapseWs`. -/
def noDbl (a b : Char) : Prop := ¬(a = ' ' ∧ b = ' ')

theorem mem_collapseWs_aux : ∀ (n : ℕ) (s : Str), s.length ≤ n →
    ∀ x ∈ collapseWs s, x = ' ' ∨ x ∈ s := by
  intro n
  induction n with
  | zero =>
    intro s hs
    have he : s = [] := List.length_eq_zero.1 (Nat.le_zero.1 hs)
    subst he
    simp [collapseWs]
  | succ n ih =>
    intro s hs x hx
    cases s with
    | nil => simp [collapseWs] at hx
    | cons c rest =>
      rw [collapseWs] at hx
      split at hx
      · rcases List.mem_cons.1 hx with rfl | hx2
        · exact Or.inl rfl
        · have hlen : (rest.dropWhile isHT).length ≤ n := by
            have h1 := (List.dropWhile_sublist (p := isHT) (l := rest)).length_le
            simp only [List.length_cons] at hs
            omega
          rcases ih _ hlen x hx2 with h | h
          · exact Or.inl h
          · exact Or.inr (List.mem_cons_of_mem _
              ((List.dropWhile_sublist (p := isHT) (l := rest)).mem h))
      · rcases List.mem_cons.1 hx with rfl | hx2
        · exact Or.inr (List.mem_cons_self _ _)
        · have hlen : rest.length ≤ n := by
            simp only [List.length_cons] at hs
            omega
          rcases ih rest hlen x hx2 with h | h
          · exact Or.inl h
          · exact Or.inr (List.mem_cons_of_mem _ h)

theorem mem_collapseWs (s : Str) (x : Char) (h : x ∈ collapseWs s) :
    x = ' ' ∨ x ∈ s := mem_collapseWs_aux s.length s le_rfl x h

theorem collapseWs_ht_aux : ∀ (n : ℕ) (s : Str), s.length ≤ n →
    ∀ x ∈ collapseWs s, isHT x = true → x = ' ' := by
  intro n
  induction n with
  | zero =>
    intro s hs
    have he : s = [] := List.length_eq_zero.1 (Nat.le_zero.1 hs)
    subst he
    simp [collapseWs]
  | succ n ih =>
    intro s hs x hx hht
    cases s with
    | nil => simp [collapseWs] at hx
    | cons c rest =>
      rw [collapseWs] at hx
      split at hx
      · rcases List.mem_cons.1 hx with rfl | hx2
        · rfl
        · have hlen : (rest.dropWhile isHT).length ≤ n := by
            have h1 := (List.dropWhile_sublist (p := isHT) (l := rest)).length_le
            simp only [List.length_cons] at hs
            omega
          exact ih _ hlen x hx2 hht
      · rcases List.mem_cons.1 hx with rfl | hx2
        · rename_i hc
          exact absurd hht hc
        · have hlen : rest.length ≤ n := by
            simp only [List.length_cons] at hs
            omega
          exact ih rest hlen x hx2 hht

theorem collapseWs_ht (s : Str) (x : Char) (h : x ∈ collapseWs s)
    (hht : isHT x = true) : x = ' ' := collapseWs_ht_aux s.length s le_rfl x h hht

theorem chain_collapseWs_aux : ∀ (n : ℕ) (s : Str), s.length ≤ n →
    List.Chain' noDbl (collapseWs s) := by
  intro n
  induction n with
  | zero =>
    intro s hs
    have he : s = [] := List.length_eq_zero.1 (Nat.le_zero.1 hs)
    subst he
    simp only [collapseWs]
    exact List.chain'_nil
  | succ n ih =>
    intro s hs
    cases s with
    | nil =>
      simp only [collapseWs]
      exact List.chain'_nil
    | cons c rest =>
      rw [collapseWs]
      split
      · have hlen : (rest.dropWhile isHT).length ≤ n := by
          have h1 := (List.dropWhile_sublist (p := isHT) (l := rest)).length_le
          simp only [List.length_cons] at hs
          omega
        refine List.chain'_cons'.2 ⟨?_, ih _ hlen⟩
        intro y hy hc
        rcases hd : rest.dropWhile isHT with _ | ⟨d, r2⟩
        · rw [hd] at hy
          simp only [collapseWs] at hy
          cases hy
        · have hdht : isHT d = false := dropWhile_head_false isHT rest d r2 hd
          rw [hd, collapseWs, if_neg (by simp [hdht])] at hy
          have hyd : d = y := by simpa using hy
          rw [← hyd] at hc
          rw [hc.2] at hdht
          exact absurd hdht (by decide)
      · rename_i hcht
        have hlen : rest.length ≤ n := by
          simp only [List.length_cons] at hs
          omega
        refine List.chain'_cons'.2 ⟨?_, ih rest hlen⟩
        intro y hy hc
        rw [hc.1] at hcht
        exact hcht (by decide)

theorem chain_collapseWs (s : Str) : List.Chain' noDbl (collapseWs s) :=
  chain_collapseWs_aux s.length s le_rfl

theorem collapse_eq_self : ∀ (s : Str), '\t' ∉ s → List.Chain' noDbl s →
    collapseWs s = s := by
  intro s
  induction s with
  | nil => intro _ _; simp [collapseWs]
  | cons c rest ih =>
    intro htab hchain
    rw [collapseWs]
    by_cases hht : isHT c = true
    · have hcsp : c = ' ' := by
        rcases (by simpa [isHT] using hht : c = ' ' ∨ c = '\t') with h | h
        · exact h
        · exact absurd (h ▸ List.mem_cons_self c rest) htab
      rw [if_pos hht]
      have hdrop : rest.dropWhile isHT = rest := by
        cases rest with
        | nil => rfl
        | cons d r2 =>
          refine List.dropWhile_cons_of_neg ?_
          have hnd : noDbl c d := (List.chain'_cons'.1 hchain).1 d rfl
          have hdsp : ¬(d = ' ') := fun he => hnd ⟨hcsp, he⟩
          have hdtab : ¬(d = '\t') :=
            fun he => htab (he ▸ List.mem_cons_of_mem _ (List.mem_cons_self d r2))
          simp [isHT, hdsp, hdtab]
      rw [hdrop, hcsp,
        ih (fun hm => htab (List.mem_cons_of_mem _ hm)) (List.chain'_cons'.1 hchain).2]
    · rw [if_neg hht,
        ih (fun hm => htab (List.mem_cons_of_mem _ hm)) (List.chain'_cons'.1 hchain).2]

theorem mem_pyReplace_aux : ∀ (n : ℕ) (pat rep s : Str), s.length ≤ n →
    ∀ x ∈ pyReplace pat rep s, x ∈ rep ∨ x ∈ s := by
  intro n
  induction n with
  | zero =>
    intro pat rep s hs
    have he : s = [] := List.length_eq_zero.1 (Nat.le_zero.1 hs)
    subst he
    simp [pyReplace]
  | succ n ih =>
    intro pat rep s hs x hx
    cases s with
    | nil => simp [pyReplace] at hx
    | cons c rest =>
      rw [pyReplace] at hx
      split at hx
      · rcases List.mem_append.1 hx with h | h
        · exact Or.inl h
        · have hlen : (rest.drop (pat.length - 1)).length ≤ n := by
            simp only [List.length_drop, List.length_cons] at hs ⊢
            omega
          rcases ih pat rep _ hlen x h with h2 | h2
          · exact Or.inl h2
          · exact Or.inr (List.mem_cons_of_mem _ (List.mem_of_mem_drop h2))
      · rcases List.mem_cons.1 hx with rfl | hx2
        · exact Or.inr (List.mem_cons_self _ _)
        · have hlen : rest.length ≤ n := by
            simp only [List.length_cons] at hs
            omega
          rcases ih pat rep rest hlen x hx2 with h2 | h2
          · exact Or.inl h2
          · exact Or.inr (List.mem_cons_of_mem _ h2)

theorem mem_pyReplace (pat rep s : Str) (x : Char) (h : x ∈ pyReplace pat rep s) :
    x ∈ rep ∨ x ∈ s := mem_pyReplace_aux s.length pat rep s le_rfl x h

theorem pyReplace_single_not_mem (p : Char) (rep : Str) (hp : p ∉ rep) :
    ∀ s : Str, p ∉ pyReplace [p] rep s := by
  intro s
  induction s with
  | nil => simp [pyReplace]
  | cons c rest ih =>
    rw [pyReplace]
    split
    · intro hm
      simp only [List.length_cons, List.length_nil, Nat.zero_add, Nat.sub_self,
        List.drop_zero] at hm
      rcases List.mem_append.1 hm with h | h
      · exact hp h
      · exact ih h
    · rename_i hcond
      intro hm
      rcases List.mem_cons.1 hm with he | h
      · refine hcond ⟨by simp, ?_⟩
        rw [← he]
        simp [List.isPrefixOf]
      · exact ih h

theorem pyStrip_ne_nil (s : Str) (x : Char) (hx : x ∈ s)
    (hws : pyIsSpace x = false) : pyStrip s ≠ [] := by
  intro he
  unfold pyStrip dropTrailWs at he
  rw [List.reverse_eq_nil_iff, List.dropWhile_eq_nil_iff] at he
  have hx2 : x ∈ s.dropWhile pyIsSpace := by
    rcases List.mem_append.1
        (by rw [List.takeWhile_append_dropWhile pyIsSpace s]; exact hx) with h | h
    · exact absurd hws (by simp [List.mem_takeWhile_imp h])
    · exact h
  exact absurd hws (by simp [he x (List.mem_reverse.2 hx2)])

theorem dropTrail_front (s : Str) : ∃ t, dropTrailWs s ++ t = s := by
  unfold dropTrailWs
  obtain ⟨t, ht⟩ := List.dropWhile_suffix (l := s.reverse) pyIsSpace
  exact ⟨t.reverse, by rw [← List.reverse_append, ht, List.reverse_reverse]⟩

theorem pyStrip_head_not_ws (s : Str) (x : Char) (h : (pyStrip s).head? = some x) :
    pyIsSpace x = false := by
  obtain ⟨t, ht⟩ := dropTrail_front (s.dropWhile pyIsSpace)
  unfold pyStrip at h
  cases hd : dropTrailWs (s.dropWhile pyIsSpace) with
  | nil => rw [hd] at h; simp at h
  | cons y r =>
    rw [hd] at h ht
    injection h with h
    rw [← h]
    exact dropWhile_head_false pyIsSpace s y (r ++ t) (by rw [← ht]; rfl)

theorem pyStrip_last_not_ws (s : Str) (x : Char) (h : (pyStrip s).getLast? = some x) :
    pyIsSpace x = false := by
  unfold pyStrip dropTrailWs at h
  rw [← List.head?_reverse, List.reverse_reverse] at h
  cases hd : ((s.dropWhile pyIsSpace).reverse).dropWhile pyIsSpace with
  | nil => rw [hd] at h; simp at h
  | cons y r =>
    rw [hd] at h
    injection h with h
    rw [← h]
    exact dropWhile_head_false pyIsSpace _ y r hd

theorem pyStrip_eq_self (s : Str)
    (hh : ∀ x, s.head? = some x → pyIsSpace x = false)
    (hl : ∀ x, s.getLast? = some x → pyIsSpace x = false) :
    pyStrip s = s := by
  unfold pyStrip dropTrailWs
  have h1 : s.dropWhile pyIsSpace = s := by
    cases s with
    | nil => rfl
    | cons c t => exact List.dropWhile_cons_of_neg (by simp [hh c rfl])
  rw [h1]
  have h2 : s.reverse.dropWhile pyIsSpace = s.reverse := by
    cases hr : s.reverse with
    | nil => rfl
    | cons c t =>
      refine List.dropWhile_cons_of_neg ?_
      have hc : s.getLast? = some c := by
        rw [← List.head?_reverse, hr]
        rfl
      simp [hl c hc]
  rw [h2, List.reverse_reverse]

theorem pyStrip_inf (s : Str) : pyStrip s <:+: s := by
  obtain ⟨t, ht⟩ := dropTrail_front (s.dropWhile pyIsSpace)
  have h1 : pyStrip s <+: s.dropWhile pyIsSpace := ⟨t, ht⟩
  exact (List.IsPrefix.isInfix h1).trans
    (List.IsSuffix.isInfix (List.dropWhile_suffix pyIsSpace))

theorem splitOnChar_first_part (c : Char) : ∀ s : Str, ∃ h t2,
    splitOnChar c s = h :: t2 ∧ h <+: s := by
  intro s
  induction s with
  | nil => exact ⟨[], [], rfl, List.nil_prefix⟩
  | cons x t ih =>
    by_cases hx : x = c
    · exact ⟨[], splitOnChar c t, by rw [splitOnChar, if_pos hx], List.nil_prefix⟩
    · obtain ⟨h, t2, hsp, hpre⟩ := ih
      refine ⟨x :: h, t2, ?_, List.cons_prefix_cons.2 ⟨rfl, hpre⟩⟩
      rw [splitOnChar, if_neg hx, hsp]

theorem splitOnChar_single (c : Char) : ∀ (s p : Str), splitOnChar c s = [p] → p = s := by
  intro s
  induction s with
  | nil =>
    intro p h
    simp [splitOnChar] at h
    exact h
  | cons x t ih =>
    intro p h
    by_cases hx : x = c
    · rw [splitOnChar, if_pos hx] at h
      injection h with h1 h2
      exact absurd h2 (splitOnChar_ne_nil c t)
    · rw [splitOnChar, if_neg hx] at h
      rcases hsp : splitOnChar c t with _ | ⟨hh, t2⟩
      · exact absurd hsp (splitOnChar_ne_nil c t)
      · rw [hsp] at h
        injection h with h1 h2
        subst h2
        rw [← h1, ih hh hsp]

theorem splitOnChar_getLast (c : Char) : ∀ s : Str, ∃ L2 p,
    splitOnChar c s = L2 ++ [p] ∧
    ((p ≠ [] ∧ p.getLast? = s.getLast?) ∨ (p = [] ∧ (s = [] ∨ s.getLast? = some c))) := by
  intro s
  induction s with
  | nil => exact ⟨[], [], rfl, Or.inr ⟨rfl, Or.inl rfl⟩⟩
  | cons x t ih =>
    obtain ⟨L2, p, hsp, hcond⟩ := ih
    by_cases hx : x = c
    · refine ⟨[] :: L2, p, by rw [splitOnChar, if_pos hx, hsp]; rfl, ?_⟩
      rcases hcond with ⟨hne, heq⟩ | ⟨hnil, hc2⟩
      · left
        refine ⟨hne, ?_⟩
        cases t with
        | nil =>
          rw [show ([] : Str).getLast? = none from rfl] at heq
          exact absurd (List.getLast?_eq_none_iff.1 heq) hne
        | cons y t2 => rw [heq, List.getLast?_cons_cons]
      · right
        refine ⟨hnil, Or.inr ?_⟩
        rcases hc2 with rfl | hc3
        · rw [hx]
          rfl
        · cases t with
          | nil => cases hc3
          | cons y t2 => rw [List.getLast?_cons_cons, hc3]
    · cases L2 with
      | nil =>
        have hpt : p = t := splitOnChar_single c t p (by simpa using hsp)
        subst hpt
        refine ⟨[], x :: p, ?_, Or.inl ⟨by simp, rfl⟩⟩
        rw [splitOnChar, if_neg hx, show splitOnChar c p = [p] from by simpa using hsp]
        rfl
      | cons q L3 =>
        refine ⟨(x :: q) :: L3, p, ?_, ?_⟩
        · rw [splitOnChar, if_neg hx, hsp]
          rfl
        · have ht : t ≠ [] := by
            intro he
            subst he
            rw [splitOnChar] at hsp
            simp at hsp
          rcases hcond with ⟨hne, heq⟩ | ⟨hnil, hc2⟩
          · left
            refine ⟨hne, ?_⟩
            cases t with
            | nil => exact absurd rfl ht
            | cons y t2 => rw [heq, List.getLast?_cons_cons]
          · right
            refine ⟨hnil, Or.inr ?_⟩
            rcases hc2 with rfl | hc3
            · exact absurd rfl ht
            · cases t with
              | nil => exact absurd rfl ht
              | cons y t2 => rw [List.getLast?_cons_cons, hc3]

theorem splitOnChar_parts_inf (c : Char) : ∀ s : Str, ∀ p ∈ splitOnChar c s, p <:+: s := by
  intro s
  induction s with
  | nil =>
    intro p hp
    have he : p = [] := by simpa [splitOnChar] using hp
    subst he
    exact List.nil_infix
  | cons x t ih =>
    intro p hp
    by_cases hx : x = c
    · rw [splitOnChar, if_pos hx] at hp
      rcases List.mem_cons.1 hp with rfl | hp2
      · exact List.nil_infix
      · exact List.infix_cons (ih p hp2)
    · rw [splitOnChar, if_neg hx] at hp
      obtain ⟨h, t2, hsp, hpre⟩ := splitOnChar_first_part c t
      rw [hsp] at hp
      rcases List.mem_cons.1 hp with rfl | hp2
      · exact List.IsPrefix.isInfix (List.cons_prefix_cons.2 ⟨rfl, hpre⟩)
      · refine List.infix_cons (ih p ?_)
        rw [hsp]
        exact List.mem_cons_of_mem _ hp2

theorem parts_ne_nil : ∀ (n : ℕ) (s : Str), s.length ≤ n → s ≠ [] →
    List.Chain' noDbl s →
    (∀ x, s.head? = some x → x ≠ ' ') →
    (∀ x, s.getLast? = some x → x ≠ ' ') →
    ∀ p ∈ splitOnChar ' ' s, p ≠ [] := by
  intro n
  induction n with
  | zero =>
    intro s hs hne
    exact absurd (List.length_eq_zero.1 (Nat.le_zero.1 hs)) hne
  | succ n ih =>
    intro s hs hne hchain hh hl p hp
    by_cases hsep : ' ' ∈ s
    · obtain ⟨l, m, rfl, hlm⟩ := first_sep_decomp ' ' s hsep
      rw [splitOnChar_append_sep _ _ _ hlm] at hp
      have hlne : l ≠ [] := by
        intro he
        subst he
        exact hh ' ' rfl rfl
      have hmne : m ≠ [] := by
        intro he
        subst he
        exact hl ' ' (by rw [List.getLast?_append_of_ne_nil _ (by simp)]; rfl) rfl
      rcases List.mem_cons.1 hp with rfl | hp2
      · exact hlne
      · have hcm : List.Chain' noDbl (' ' :: m) := (List.chain'_append.1 hchain).2.1
        refine ih m ?_ hmne (List.chain'_cons'.1 hcm).2 ?_ ?_ p hp2
        · have h2 := hs
          rw [List.length_append, List.length_cons] at h2
          omega
        · intro x hx he
          exact (List.chain'_cons'.1 hcm).1 x hx ⟨rfl, he⟩
        · intro x hx
          refine hl x ?_
          rw [List.getLast?_append_of_ne_nil _ (by simp),
            show ' ' :: m = [' '] ++ m from rfl,
            List.getLast?_append_of_ne_nil _ hmne]
          exact hx
    · rw [splitOnChar_no_sep _ _ hsep, List.mem_singleton] at hp
      subst hp
      exact hne

theorem mem_normalize (s : Str) (x : Char) (h : x ∈ normalize_whitespace s) :
    x = ' ' ∨ x = '\n' ∨ x ∈ s := by
  unfold normalize_whitespace at h
  have h1 := mem_of_mem_pyStrip _ _ h
  rcases mem_collapseWs _ _ h1 with rfl | h2
  · exact Or.inl rfl
  rcases mem_pyReplace _ _ _ _ h2 with h3 | h3
  · exact Or.inr (Or.inl (by simpa using h3))
  rcases mem_pyReplace _ _ _ _ h3 with h4 | h4
  · exact Or.inr (Or.inl (by simpa using h4))
  · exact Or.inr (Or.inr h4)

theorem no_cr_normalize (s : Str) : '\r' ∉ normalize_whitespace s := by
  intro h
  have h1 := mem_of_mem_pyStrip _ _ h
  rcases mem_collapseWs _ _ h1 with he | h2
  · exact absurd he (by decide)
  · exact pyReplace_single_not_mem '\r' ['\n'] (by decide) _ h2

theorem no_tab_normalize (s : Str) : '\t' ∉ normalize_whitespace s := by
  intro h
  have h1 := mem_of_mem_pyStrip _ _ h
  exact absurd (collapseWs_ht _ '\t' h1 (by decide)) (by decide)

theorem chain_normalize (s : Str) : List.Chain' noDbl (normalize_whitespace s) :=
  chain_of_inf noDbl _ _ (pyStrip_inf _) (chain_collapseWs _)

theorem normalize_head_not_ws (s : Str) :
    ∀ x, (normalize_whitespace s).head? = some x → pyIsSpace x = false :=
  fun x h => pyStrip_head_not_ws _ x h

theorem normalize_last_not_ws (s : Str) :
    ∀ x, (normalize_whitespace s).getLast? = some x → pyIsSpace x = false :=
  fun x h => pyStrip_last_not_ws _ x h

theorem normalize_eq_self (s : Str) (hcr : '\r' ∉ s) (htab : '\t' ∉ s)
    (hchain : List.Chain' noDbl s)
    (hh : ∀ x, s.head? = some x → pyIsSpace x = false)
    (hl : ∀ x, s.getLast? = some x → pyIsSpace x = false) :
    normalize_whitespace s = s := by
  unfold normalize_whitespace
  rw [pyReplace_id_of_not_mem _ _ _ _ hcr, pyReplace_id_of_not_mem _ _ _ _ hcr,
    collapse_eq_self s htab hchain, pyStrip_eq_self s hh hl]

theorem normalize_ws_idem (s : Str) :
    normalize_whitespace (normalize_whitespace s) = normalize_whitespace s :=
  normalize_eq_self _ (no_cr_normalize s) (no_tab_normalize s) (chain_normalize s)
    (normalize_head_not_ws s) (normalize_last_not_ws s)

theorem greedy_all_fit (w : Str → ℚ) (maxw : ℤ) :
    ∀ (ws current : List Str), current ≠ [] →
    wrapCert w maxw (current ++ ws) →
    greedyWrap w maxw current ws = [joinSp (current ++ ws)] := by
  intro ws
  induction ws with
  | nil =>
    intro current _ _
    simp [greedyWrap]
  | cons word rest ih =>
    intro current hne hc
    rw [greedyWrap]
    have hfit : w (joinSp (current ++ [word])) ≤ (maxw : ℚ) := by
      have h2 := hc (current.length + 1)
        (by have := List.length_pos.2 hne; omega)
        (by rw [List.length_append, List.length_cons]; omega)
      rw [List.take_append 1] at h2
      simpa using h2
    rw [if_pos hfit, ih (current ++ [word]) (by simp)
      (by rw [List.append_assoc]; exact hc), List.append_assoc]
    simp

theorem chain_of_no_sp (u : Str) (h : ∀ x ∈ u, x ≠ ' ') : List.Chain' noDbl u := by
  induction u with
  | nil => exact List.chain'_nil
  | cons a t ih =>
    refine List.chain'_cons'.2 ⟨?_, ih (fun x hx => h x (List.mem_cons_of_mem _ hx))⟩
    intro y _ hcon
    exact h a (List.mem_cons_self _ _) hcon.1

theorem chain_joinSp_words : ∀ us : List Str,
    (∀ u ∈ us, u ≠ [] ∧ ∀ x ∈ u, x ≠ ' ') →
    List.Chain' noDbl (joinSp us) := by
  intro us
  induction us with
  | nil => exact fun _ => List.chain'_nil
  | cons u t ih =>
    intro hgood
    cases t with
    | nil => exact chain_of_no_sp u (hgood u (List.mem_cons_self _ _)).2
    | cons v t2 =>
      show List.Chain' noDbl (u ++ ' ' :: joinChar ' ' (v :: t2))
      rw [List.chain'_append]
      refine ⟨chain_of_no_sp u (hgood u (List.mem_cons_self _ _)).2, ?_, ?_⟩
      · rw [List.chain'_cons']
        refine ⟨?_, ih (fun x hx => hgood x (List.mem_cons_of_mem _ hx))⟩
        intro y hy hcon
        have hv := hgood v (List.mem_cons_of_mem _ (List.mem_cons_self _ _))
        rw [joinChar_head ' ' v t2 hv.1] at hy
        exact hv.2 y (List.mem_of_mem_head? hy) hcon.2
      · intro x hx y _ hcon
        exact (hgood u (List.mem_cons_self _ _)).2 x (getLast?_mem_self u x hx) hcon.1

theorem chain_joinNl : ∀ L : List Str, (∀ l ∈ L, List.Chain' noDbl l) →
    List.Chain' noDbl (joinNl L) := by
  intro L
  induction L with
  | nil => exact fun _ => List.chain'_nil
  | cons l t ih =>
    intro hgood
    cases t with
    | nil => exact hgood l (List.mem_cons_self _ _)
    | cons l2 t2 =>
      show List.Chain' noDbl (l ++ '\n' :: joinChar '\n' (l2 :: t2))
      rw [List.chain'_append]
      refine ⟨hgood l (List.mem_cons_self _ _), ?_, ?_⟩
      · rw [List.chain'_cons']
        refine ⟨?_, ih (fun x hx => hgood x (List.mem_cons_of_mem _ hx))⟩
        intro y _ hcon
        exact absurd hcon.1 (by decide)
      · intro x _ y hy hcon
        have hyn : '\n' = y := by simpa using hy
        rw [← hyn] at hcon
        exact absurd hcon.2 (by decide)

theorem joinSp_words_ne_nil (us : List Str) (hne : us ≠ [])
    (hgood : ∀ u ∈ us, u ≠ []) : joinSp us ≠ [] := by
  cases us with
  | nil => exact absurd rfl hne
  | cons u t =>
    have hu := hgood u (List.mem_cons_self _ _)
    intro he
    have hh := joinChar_head ' ' u t hu
    rw [show joinChar ' ' (u :: t) = joinSp (u :: t) from rfl, he] at hh
    cases u with
    | nil => exact hu rfl
    | cons a u2 => simp at hh

theorem joinSp_words_head (us : List Str) (x : Char)
    (hgood : ∀ u ∈ us, u ≠ [] ∧ ∀ y ∈ u, pyIsSpace y = false)
    (h : (joinSp us).head? = some x) : pyIsSpace x = false := by
  cases us with
  | nil => simp [joinSp, joinChar] at h
  | cons u t =>
    have hu := hgood u (List.mem_cons_self _ _)
    rw [show joinSp (u :: t) = joinChar ' ' (u :: t) from rfl,
      joinChar_head ' ' u t hu.1] at h
    exact hu.2 x (List.mem_of_mem_head? h)

theorem joinSp_words_last (us : List Str) (x : Char) (hne : us ≠ [])
    (hgood : ∀ u ∈ us, u ≠ [] ∧ ∀ y ∈ u, pyIsSpace y = false)
    (h : (joinSp us).getLast? = some x) : pyIsSpace x = false := by
  obtain ⟨u, hu, heq⟩ := joinChar_getLast ' ' us hne (fun v hv => (hgood v hv).1)
  rw [show joinSp us = joinChar ' ' us from rfl, heq] at h
  exact (hgood u hu).2 x (getLast?_mem_self u x h)

theorem wrapLine_good (w : Str → ℚ) (maxw : ℤ) (t2 raw : Str)
    (hws : ∀ x ∈ t2, pyIsSpace x = true → x = ' ' ∨ x = '\n')
    (hchain : List.Chain' noDbl t2)
    (hraw : raw ∈ splitOnChar '\n' t2) (hne : pyStrip raw ≠ []) :
    ∀ l ∈ wrapLine w maxw raw, ∃ us, us ≠ [] ∧ l = joinSp us ∧
      wrapCert w maxw us ∧ ∀ u ∈ us, u ≠ [] ∧ ∀ x ∈ u, pyIsSpace x = false := by
  intro l hl
  unfold wrapLine at hl
  rw [if_neg hne] at hl
  rcases hsp : splitOnChar ' ' (pyStrip raw) with _ | ⟨first, ws⟩
  · exact absurd hsp (splitOnChar_ne_nil _ _)
  rw [hsp] at hl
  obtain ⟨us, husne, rfl, hmem, hcert⟩ := greedy_struct w maxw ws [first]
    (by simp) (wrapCert_singleton w maxw first) l hl
  refine ⟨us, husne, rfl, hcert, ?_⟩
  have hpartmem : ∀ u ∈ us, u ∈ splitOnChar ' ' (pyStrip raw) := by
    intro u hu
    rw [hsp]
    rcases hmem u hu with hm | hm
    · have he : u = first := by simpa using hm
      rw [he]
      exact List.mem_cons_self _ _
    · exact List.mem_cons_of_mem _ hm
  have hchainraw : List.Chain' noDbl (pyStrip raw) :=
    chain_of_inf noDbl _ _
      ((pyStrip_inf raw).trans (splitOnChar_parts_inf '\n' t2 raw hraw)) hchain
  intro u hu
  refine ⟨?_, ?_⟩
  · refine parts_ne_nil (pyStrip raw).length (pyStrip raw) le_rfl hne hchainraw
      ?_ ?_ u (hpartmem u hu)
    · intro y hy he
      have h2 := pyStrip_head_not_ws raw y hy
      rw [he] at h2
      exact absurd h2 (by decide)
    · intro y hy he
      have h2 := pyStrip_last_not_ws raw y hy
      rw [he] at h2
      exact absurd h2 (by decide)
  · intro x hx
    have hxs : x ∈ pyStrip raw :=
      splitOnChar_parts_chars ' ' (pyStrip raw) u (hpartmem u hu) x hx
    have hxr : x ∈ raw := mem_of_mem_pyStrip raw x hxs
    have hxt : x ∈ t2 := splitOnChar_parts_chars '\n' t2 raw hraw x hxr
    by_contra hx2
    rw [Bool.not_eq_false] at hx2
    rcases hws x hxt hx2 with rfl | rfl
    · exact splitOnChar_parts_no_sep ' ' (pyStrip raw) u (hpartmem u hu) hx
    · exact splitOnChar_parts_no_sep '\n' t2 raw hraw hxr

theorem wrapLine_out_self (w : Str → ℚ) (maxw : ℤ) (t2 : Str)
    (hws : ∀ x ∈ t2, pyIsSpace x = true → x = ' ' ∨ x = '\n')
    (hchain : List.Chain' noDbl t2) :
    ∀ l ∈ wrapLines w maxw t2, wrapLine w maxw l = [l] := by
  intro l hl
  unfold wrapLines at hl
  obtain ⟨ls, hls, hlmem⟩ := List.mem_flatten.1 hl
  obtain ⟨raw, hraw, rfl⟩ := List.mem_map.1 hls
  by_cases hg : pyStrip raw = []
  · have he : l = [] := by
      unfold wrapLine at hlmem
      rw [if_pos hg] at hlmem
      simpa using hlmem
    subst he
    unfold wrapLine
    rw [if_pos (show pyStrip [] = [] from rfl)]
  · obtain ⟨us, husne, hleq, hcert, hgood⟩ :=
      wrapLine_good w maxw t2 raw hws hchain hraw hg l hlmem
    subst hleq
    have hlne : joinSp us ≠ [] :=
      joinSp_words_ne_nil us husne (fun u hu => (hgood u hu).1)
    have hstrip : pyStrip (joinSp us) = joinSp us := by
      refine pyStrip_eq_self _ ?_ ?_
      · exact fun x hx => joinSp_words_head us x hgood hx
      · exact fun x hx => joinSp_words_last us x husne hgood hx
    have hsplit : splitOnChar ' ' (joinSp us) = us := by
      refine splitJoinChar ' ' us husne ?_
      intro u hu hsp
      exact absurd ((hgood u hu).2 ' ' hsp) (by decide)
    unfold wrapLine
    rw [hstrip, if_neg hlne, hsplit]
    cases us with
    | nil => exact absurd rfl husne
    | cons first rest => exact greedy_all_fit w maxw rest [first] (by simp) hcert

theorem flatten_singletons (L : List Str) : (L.map (fun l => [l])).flatten = L := by
  induction L with
  | nil => rfl
  | cons l t ih => simp [ih]

theorem wrapLines_join_self (w : Str → ℚ) (maxw : ℤ) (t2 : Str)
    (hws : ∀ x ∈ t2, pyIsSpace x = true → x = ' ' ∨ x = '\n')
    (hchain : List.Chain' noDbl t2) :
    wrapLines w maxw (joinNl (wrapLines w maxw t2)) = wrapLines w maxw t2 := by
  conv_lhs => rw [wrapLines]
  rw [splitJoin_nl _ (wrapLines_ne_nil w maxw t2) (wrapLines_no_nl w maxw t2),
    List.map_congr_left (fun l hl => wrapLine_out_self w maxw t2 hws hchain l hl),
    flatten_singletons]

theorem wrap_out_head (w : Str → ℚ) (maxw : ℤ) (t2 : Str)
    (hws : ∀ x ∈ t2, pyIsSpace x = true → x = ' ' ∨ x = '\n')
    (hchain : List.Chain' noDbl t2)
    (hh : ∀ x, t2.head? = some x → pyIsSpace x = false)
    (htne : t2 ≠ []) :
    ∀ x, (joinNl (wrapLines w maxw t2)).head? = some x → pyIsSpace x = false := by
  cases t2 with
  | nil => exact absurd rfl htne
  | cons c t3 =>
    intro x hx
    have hc : pyIsSpace c = false := hh c rfl
    have hcn : ¬(c = '\n') := by
      intro he
      rw [he] at hc
      exact absurd hc (by decide)
    rcases hsp2 : splitOnChar '\n' t3 with _ | ⟨h, t4⟩
    · exact absurd hsp2 (splitOnChar_ne_nil _ _)
    have hsp : splitOnChar '\n' (c :: t3) = (c :: h) :: t4 := by
      rw [splitOnChar, if_neg hcn, hsp2]
    have hraw : (c :: h) ∈ splitOnChar '\n' (c :: t3) := by
      rw [hsp]
      exact List.mem_cons_self _ _
    have hstrip : pyStrip (c :: h) ≠ [] :=
      pyStrip_ne_nil _ c (List.mem_cons_self _ _) hc
    rcases hfl : wrapLine w maxw (c :: h) with _ | ⟨l1, ls⟩
    · exact absurd hfl (wrapLine_ne_nil w maxw _)
    have hl1 : l1 ∈ wrapLine w maxw (c :: h) := by
      rw [hfl]
      exact List.mem_cons_self _ _
    obtain ⟨us, husne, hl1eq, -, hgood⟩ :=
      wrapLine_good w maxw (c :: t3) (c :: h) hws hchain hraw hstrip l1 hl1
    have hl1ne : l1 ≠ [] := by
      rw [hl1eq]
      exact joinSp_words_ne_nil us husne (fun u hu => (hgood u hu).1)
    have hwl : wrapLines w maxw (c :: t3)
        = l1 :: (ls ++ (t4.map (wrapLine w maxw)).flatten) := by
      unfold wrapLines
      rw [hsp, List.map_cons, List.flatten_cons, hfl]
      rfl
    rw [hwl, joinNl_head l1 _ hl1ne, hl1eq] at hx
    exact joinSp_words_head us x hgood hx

theorem wrap_out_last (w : Str → ℚ) (maxw : ℤ) (t2 : Str)
    (hws : ∀ x ∈ t2, pyIsSpace x = true → x = ' ' ∨ x = '\n')
    (hchain : List.Chain' noDbl t2)
    (hl : ∀ x, t2.getLast? = some x → pyIsSpace x = false)
    (htne : t2 ≠ []) :
    ∀ x, (joinNl (wrapLines w maxw t2)).getLast? = some x → pyIsSpace x = false := by
  intro x hx
  obtain ⟨L2, p, hsp, hcond⟩ := splitOnChar_getLast '\n' t2
  have hpfacts : p ≠ [] ∧ p.getLast? = t2.getLast? := by
    rcases hcond with hgg | ⟨hnil, hc2⟩
    · exact hgg
    · rcases hc2 with rfl | hc3
      · exact absurd rfl htne
      · exact absurd (hl '\n' hc3) (by decide)
  have hz : ∃ z, t2.getLast? = some z := by
    cases t2 with
    | nil => exact absurd rfl htne
    | cons a b => exact ⟨(a :: b).getLast (by simp), List.getLast?_eq_getLast_of_ne_nil _⟩
  obtain ⟨z, hz⟩ := hz
  have hstrip : pyStrip p ≠ [] := by
    refine pyStrip_ne_nil p z (getLast?_mem_self p z ?_) (hl z hz)
    rw [hpfacts.2, hz]
  have hraw : p ∈ splitOnChar '\n' t2 := by
    rw [hsp]
    exact List.mem_append.2 (Or.inr (List.mem_singleton.2 rfl))
  have hwl : wrapLines w maxw t2
      = (L2.map (wrapLine w maxw)).flatten ++ wrapLine w maxw p := by
    unfold wrapLines
    rw [hsp, List.map_append, List.flatten_append]
    simp
  rcases List.eq_nil_or_concat (wrapLine w maxw p) with he | ⟨ls2, llast, hfl⟩
  · exact absurd he (wrapLine_ne_nil w maxw p)
  rw [List.concat_eq_append] at hfl
  have hlmem : llast ∈ wrapLine w maxw p := by
    rw [hfl]
    exact List.mem_append.2 (Or.inr (List.mem_singleton.2 rfl))
  obtain ⟨us, husne, hleq, -, hgood⟩ :=
    wrapLine_good w maxw t2 p hws hchain hraw hstrip llast hlmem
  have hlne : llast ≠ [] := by
    rw [hleq]
    exact joinSp_words_ne_nil us husne (fun u hu => (hgood u hu).1)
  rw [hwl, hfl, ← List.append_assoc, joinNl_last_single _ llast hlne, hleq] at hx
  exact joinSp_words_last us x husne hgood hx

theorem wrap_out_norm (w : Str → ℚ) (maxw : ℤ) (t2 : Str)
    (hws : ∀ x ∈ t2, pyIsSpace x = true → x = ' ' ∨ x = '\n')
    (hchain : List.Chain' noDbl t2)
    (hcr : '\r' ∉ t2) (htab : '\t' ∉ t2) (htne : t2 ≠ [])
    (hh : ∀ x, t2.head? = some x → pyIsSpace x = false)
    (hl : ∀ x, t2.getLast? = some x → pyIsSpace x = false) :
    normalize_whitespace (joinNl (wrapLines w maxw t2))
      = joinNl (wrapLines w maxw t2) := by
  have hchar : ∀ x ∈ joinNl (wrapLines w maxw t2), x = '\n' ∨ x = ' ' ∨ x ∈ t2 := by
    intro x hx
    rcases mem_joinNl _ x hx with rfl | ⟨l, hlm, hxl⟩
    · exact Or.inl rfl
    · unfold wrapLines at hlm
      obtain ⟨ls, hls, hlmem⟩ := List.mem_flatten.1 hlm
      obtain ⟨raw, hraw, rfl⟩ := List.mem_map.1 hls
      rcases mem_wrapLine_chars w maxw raw l hlmem x hxl with rfl | hm
      · exact Or.inr (Or.inl rfl)
      · exact Or.inr (Or.inr (splitOnChar_parts_chars '\n' t2 raw hraw x hm))
  have hcr2 : '\r' ∉ joinNl (wrapLines w maxw t2) := by
    intro hm
    rcases hchar '\r' hm with hd | hd | hd
    · exact absurd hd (by decide)
    · exact absurd hd (by decide)
    · exact hcr hd
  have htab2 : '\t' ∉ joinNl (wrapLines w maxw t2) := by
    intro hm
    rcases hchar '\t' hm with hd | hd | hd
    · exact absurd hd (by decide)
    · exact absurd hd (by decide)
    · exact htab hd
  have hchain2 : List.Chain' noDbl (joinNl (wrapLines w maxw t2)) := by
    refine chain_joinNl _ ?_
    intro l hl2
    unfold wrapLines at hl2
    obtain ⟨ls, hls, hlmem⟩ := List.mem_flatten.1 hl2
    obtain ⟨raw, hraw, rfl⟩ := List.mem_map.1 hls
    by_cases hg : pyStrip raw = []
    · have he : l = [] := by
        unfold wrapLine at hlmem
        rw [if_pos hg] at hlmem
        simpa using hlmem
      subst he
      exact List.chain'_nil
    · obtain ⟨us, husne, hleq, -, hgood⟩ :=
        wrapLine_good w maxw t2 raw hws hchain hraw hg l hlmem
      subst hleq
      refine chain_joinSp_words us ?_
      intro u hu
      refine ⟨(hgood u hu).1, ?_⟩
      intro y hy he
      have h2 := (hgood u hu).2 y hy
      rw [he] at h2
      exact absurd h2 (by decide)
  exact normalize_eq_self _ hcr2 htab2 hchain2
    (wrap_out_head w maxw t2 hws hchain hh htne)
    (wrap_out_last w maxw t2 hws hchain hl htne)

/-- C8 (amended): on input texts whose whitespace is limited to space, tab,
newline and carriage return — i.e. free of the characters that Python's
`str.strip()` removes but the `[ \t]+` collapse regex does not touch
(vertical tab, form feed, `\x1c`-`\x1f`, NEL, NBSP and the Unicode space
characters) — wrapping is idempotent: wrapping an already-wrapped text at the
same width reproduces the same output, for every measurement function and
width budget. -/
theorem C8_wrap_idempotent (w : Str → ℚ) (text : Str) (maxw : ℤ)
    (hVT : ∀ x ∈ text, pyIsSpace x = true →
      x = ' ' ∨ x = '\t' ∨ x = '\n' ∨ x = '\r') :
    wrap_text_to_width w (wrap_text_to_width w text maxw) maxw
      = wrap_text_to_width w text maxw := by
  by_cases hpos : maxw ≤ 0
  · have hWle : ∀ s, wrap_text_to_width w s maxw = normalize_whitespace s := by
      intro s
      unfold wrap_text_to_width
      rw [if_pos hpos]
    rw [hWle, hWle]
    exact normalize_ws_idem text
  · have hWgt : ∀ s, wrap_text_to_width w s maxw
        = joinNl (wrapLines w maxw (normalize_whitespace s)) := by
      intro s
      unfold wrap_text_to_width
      rw [if_neg hpos]
    rw [hWgt, hWgt]
    by_cases htne : normalize_whitespace text = []
    · rw [htne]
      have hwnil : wrapLines w maxw ([] : Str) = [[]] := by
        unfold wrapLines
        rw [show splitOnChar '\n' ([] : Str) = [[]] from rfl]
        simp only [List.map_cons, List.map_nil, List.flatten_cons, List.flatten_nil,
          List.append_nil]
        unfold wrapLine
        rw [if_pos (show pyStrip [] = [] from rfl)]
      rw [hwnil, show joinNl [[]] = ([] : Str) from rfl]
      have hn : normalize_whitespace ([] : Str) = [] := by
        unfold normalize_whitespace
        rw [pyReplace_nilStr, pyReplace_nilStr,
          show collapseWs [] = [] from by simp [collapseWs]]
        rfl
      rw [hn, hwnil]
      rfl
    · have hws : ∀ x ∈ normalize_whitespace text,
          pyIsSpace x = true → x = ' ' ∨ x = '\n' := by
        intro x hx hsp
        rcases mem_normalize text x hx with rfl | rfl | hxt
        · exact Or.inl rfl
        · exact Or.inr rfl
        · rcases hVT x hxt hsp with h | h | h | h
          · exact Or.inl h
          · exact absurd (h ▸ hx) (no_tab_normalize text)
          · exact Or.inr h
          · exact absurd (h ▸ hx) (no_cr_normalize text)
      have hchain := chain_normalize text
      rw [wrap_out_norm w maxw _ hws hchain (no_cr_normalize text)
        (no_tab_normalize text) htne (normalize_head_not_ws text)
        (normalize_last_not_ws text),
        wrapLines_join_self w maxw _ hws hchain]

/-- C8 counterexample to the claim as stated: with character-count measurement
(10 px per character) and a 10 px budget, the input `"x \x0b y"` wraps to
`"x\n\x0b\ny"` (the vertical tab survives as its own line because the
`[ \t]+` collapse regex does not touch it), but wrapping that output again
yields `"x\n\ny"`: the re-run strips the vertical-tab line to an empty line.
So `wrap` is not idempotent on arbitrary input. -/
theorem C8_counterexample :
    wrap_text_to_width (fun s : Str => (10 * s.length : ℚ))
        ('x' :: ' ' :: '\x0b' :: ' ' :: 'y' :: []) 10
      = ('x' :: '\n' :: '\x0b' :: '\n' :: 'y' :: []) ∧
    wrap_text_to_width (fun s : Str => (10 * s.length : ℚ))
        (wrap_text_to_width (fun s : Str => (10 * s.length : ℚ))
          ('x' :: ' ' :: '\x0b' :: ' ' :: 'y' :: []) 10) 10
      = ('x' :: '\n' :: '\n' :: 'y' :: []) := by
  constructor <;>
    simp +decide [wrap_text_to_width, normalize_whitespace, pyReplace, collapseWs,
      pyStrip, dropTrailWs, wrapLines, wrapLine, splitOnChar, greedyWrap, joinNl,
      joinSp, joinChar, pyIsSpace, isHT, List.isPrefixOf, List.dropWhile]

theorem C8_wrap_idempotent_witness :
    (∀ x ∈ ('h' :: 'i' :: ' ' :: 'y' :: 'o' :: []), pyIsSpace x = true →
      x = ' ' ∨ x = '\t' ∨ x = '\n' ∨ x = '\r') ∧
    wrap_text_to_width (fun s : Str => (10 * s.length : ℚ))
        (wrap_text_to_width (fun s : Str => (10 * s.length : ℚ))
          ('h' :: 'i' :: ' ' :: 'y' :: 'o' :: []) 20) 20
      = wrap_text_to_width (fun s : Str => (10 * s.length : ℚ))
          ('h' :: 'i' :: ' ' :: 'y' :: 'o' :: []) 20 :=
  ⟨by decide, C8_wrap_idempotent (fun s : Str => (10 * s.length : ℚ))
    ('h' :: 'i' :: ' ' :: 'y' :: 'o' :: []) 20 (by decide)⟩
